import Mathlib

/-!
Verification of the Way-CMS preview/asset pipeline (`cms/app.py`).

This file gives a shallow embedding of the path-sandbox resolution
(`safe_path`), the relative-URL resolver (`resolve_relative_path`), the
HTML/CSS rewrite callbacks and scanning passes of
`process_html_for_preview`, and the `/preview-assets/` endpoint
resolution, together with theorems about them.

Conventions of the embedding:
* Python strings are Lean `String`s (in this toolchain a wrapper around
  `List Char`); the source runs on POSIX, so `os.sep = '/'` and
  `os.path` functions follow `posixpath`.
* `os.getcwd()` is an explicit `cwd` parameter; the module-level base
  directory, the filesystem (set of existing absolute paths), and the
  request host are explicit parameters as well.
* Regex character classes `\s` and `\w` are modelled over their ASCII
  members, which is what the scanned HTML/CSS text uses.
-/

/-- ASCII members of the regex class `\s` (Python `str.strip()` whitespace). -/
def isPySpace (c : Char) : Bool :=
  (c == ' ') || (c == '\t') || (c == '\n') || (c == '\x0b') || (c == '\x0c') || (c == '\r')

/-- ASCII members of the regex class `\w`, used for `\b` word boundaries. -/
def isWordChar (c : Char) : Bool := c.isAlphanum || (c == '_')

/-- A single or double quote character. -/
def quoteChar (c : Char) : Bool := (c == '"') || (c == Char.ofNat 39)

/-- Python `str.startswith`. -/
def strStartsWith (s pre : String) : Bool := pre.data.isPrefixOf s.data

/-- Python `str.endswith`. -/
def strEndsWith (s suf : String) : Bool := suf.data.isSuffixOf s.data

/-- Python `str.lstrip(c)`. -/
def pyLstrip (s : String) (c : Char) : String := String.mk (s.data.dropWhile (· == c))

/-- Python `str.strip(c)`. -/
def pyStrip (s : String) (c : Char) : String :=
  String.mk (((s.data.dropWhile (· == c)).reverse.dropWhile (· == c)).reverse)

/-- Python `str.strip()` (whitespace). -/
def pyStripWs (s : String) : String :=
  String.mk (((s.data.dropWhile isPySpace).reverse.dropWhile isPySpace).reverse)

/-- Python `s.replace('\\', '/')` (single-character replacement is a map). -/
def pyReplaceBS (s : String) : String :=
  String.mk (s.data.map fun c => if c = '\\' then '/' else c)

/-- Python `str.split(sep)` for a one-character separator:
`"".split('/') = [""]`, `"a/".split('/') = ["a", ""]`. -/
def splitChar (sep : Char) : List Char → List (List Char)
  | [] => [[]]
  | c :: cs =>
    if c = sep then [] :: splitChar sep cs
    else
      match splitChar sep cs with
      | [] => [[c]]
      | t :: ts => (c :: t) :: ts

/-- Fuelled worker for Python `str.replace` (left-to-right, non-overlapping). -/
def replaceAllGo (pat rep : List Char) : Nat → List Char → List Char
  | 0, s => s
  | _ + 1, [] => []
  | f + 1, c :: cs =>
    if pat.isPrefixOf (c :: cs) then rep ++ replaceAllGo pat rep f ((c :: cs).drop pat.length)
    else c :: replaceAllGo pat rep f cs

/-- Python `s.replace(pat, rep)` for nonempty `pat`. -/
def pyReplace (s pat rep : String) : String :=
  String.mk (replaceAllGo pat.data rep.data (s.data.length + 1) s.data)

/-- Python substring containment (`pat in s`). -/
def listContainsSub (pat : List Char) : List Char → Bool
  | [] => pat.isEmpty
  | c :: cs => pat.isPrefixOf (c :: cs) || listContainsSub pat cs

/-- `url.startswith((p1, p2, ...))`: any of the prefixes. -/
def startsWithAny (s : String) (l : List String) : Bool := l.any fun t => strStartsWith s t

/-- `any(service in url for service in l)`. -/
def containsAny (s : String) (l : List String) : Bool := l.any fun t => listContainsSub t.data s.data

/-- Python `sep.join(parts)` for a one-character separator. -/
def joinSep (sep : Char) : List (List Char) → List Char
  | [] => []
  | [x] => x
  | x :: y :: rest => x ++ sep :: joinSep sep (y :: rest)

/-- The `'..'` path component. -/
def dotdot : List Char := ['.', '.']

/-- The component-processing loop of `posixpath.normpath`: drop `''` and `'.'`,
append ordinary components, let `'..'` pop the accumulator (kept literally when
it cannot cancel: at the front of a relative path or after another `'..'`).
`slashes` is `initial_slashes` of the Python source. -/
def normComps (slashes : Nat) : List (List Char) → List (List Char) → List (List Char)
  | acc, [] => acc
  | acc, comp :: rest =>
    if comp = [] ∨ comp = ['.'] then normComps slashes acc rest
    else if comp ≠ dotdot ∨ (slashes = 0 ∧ acc = []) ∨ acc.getLast? = some dotdot then
      normComps slashes (acc ++ [comp]) rest
    else if acc ≠ [] then normComps slashes acc.dropLast rest
    else normComps slashes acc rest

/-- `initial_slashes` of `posixpath.normpath`: 0 for a relative path, 2 for
exactly two leading slashes (POSIX special case), else 1. -/
def normSlashes (l : List Char) : Nat :=
  if l.take 1 = ['/'] then
    if l.take 2 = ['/', '/'] ∧ l.take 3 ≠ ['/', '/', '/'] then 2 else 1
  else 0

/-- `posixpath.normpath`. -/
def pyNormpath (p : String) : String :=
  let slashes := normSlashes p.data
  let final := normComps slashes [] (splitChar '/' p.data)
  let out := List.replicate slashes '/' ++ joinSep '/' final
  if out = [] then "." else String.mk out

/-- `posixpath.join` for two arguments. -/
def pyJoin (a b : String) : String :=
  if strStartsWith b "/" then b
  else if a = "" ∨ strEndsWith a "/" then a ++ b
  else a ++ "/" ++ b

/-- `os.path.abspath` with the process working directory made explicit. -/
def pyAbspath (cwd p : String) : String :=
  if strStartsWith p "/" then pyNormpath p else pyNormpath (pyJoin cwd p)

/-- `safe_path` of `cms/app.py` (lines 248-273): normalize, strip leading
slashes and dots, join with the base directory, and accept only results equal
to the base or below it. -/
def safe_path (cwd base_dir file_path : String) : Option String :=
  if file_path = "" then some (pyAbspath cwd base_dir)
  else
    let normalized := pyReplaceBS (pyNormpath file_path)
    let normalized := pyLstrip (pyLstrip normalized '/') '.'
    let full_path := pyAbspath cwd (pyJoin base_dir normalized)
    let base_path := pyAbspath cwd base_dir
    if strStartsWith full_path (base_path ++ "/") = false ∧ full_path ≠ base_path then none
    else some full_path

/-- `'/'.join(p.split('/')[:-1]) if '/' in p else ''` — the directory of a
file path, shared by `resolve_relative_path` (line 450) and
`process_html_for_preview` (line 487). -/
def dirOfPath (p : String) : String :=
  if '/' ∈ p.data then String.mk (joinSep '/' ((splitChar '/' p.data).dropLast))
  else ""

/-- One step of the `../` loop of `resolve_relative_path`: `..` pops, plain
segments push, `''` and `.` are dropped. -/
def resolveStep (acc : List (List Char)) (part : List Char) : List (List Char) :=
  if part = dotdot then acc.dropLast
  else if part ≠ [] ∧ part ≠ ['.'] then acc ++ [part] else acc

/-- The pre-normalization joining step of `resolve_relative_path`
(lines 449-474), acting on the backslash-replaced inputs `bp` and `ru`. -/
def resolvePre (bp ru : String) : String :=
  let base_dir : String := dirOfPath bp
  if strStartsWith ru "/" then pyLstrip ru '/'
  else if strStartsWith ru "../" then
    let parts : List (List Char) := if base_dir = "" then [] else splitChar '/' base_dir.data
    String.mk (joinSep '/' ((splitChar '/' ru.data).foldl resolveStep parts))
  else if strStartsWith ru "./" then
    if base_dir = "" then String.mk (ru.data.drop 2)
    else base_dir ++ "/" ++ String.mk (ru.data.drop 2)
  else
    if base_dir = "" then ru else base_dir ++ "/" ++ ru

/-- `resolve_relative_path` of `cms/app.py` (lines 440-478): replace
backslashes, join against the containing directory, then
`posixpath.normpath(...).replace('\\', '/')`. -/
def resolve_relative_path (base_path relative_url : String) : String :=
  pyReplaceBS (pyNormpath (resolvePre (pyReplaceBS base_path) (pyReplaceBS relative_url)))

/-! ## The rewrite callbacks of `process_html_for_preview`

Each Python replacement callback becomes a function of the captured groups
(`g0` is `match.group(0)`).  The module globals it reads — working directory,
project base directory, and the filesystem (the set of existing absolute
paths, standing in for `os.path.exists`) — are explicit parameters. -/

/-- `test_full_path = safe_path(p)` followed by
`test_full_path and os.path.exists(test_full_path)`. -/
def existsLocal (cwd base_dir : String) (fs : List String) (p : String) : Bool :=
  match safe_path cwd base_dir p with
  | some fp => fs.contains fp
  | none => false

/-- `f'/preview-assets/{x}'.replace('//', '/')`. -/
def mkPreviewUrl (x : String) : String := pyReplace ("/preview-assets/" ++ x) "//" "/"

/-- The attribute emitter: default to double quotes when the original value
was unquoted, then `f'{attr_name}={quote1}{new_url}{quote2}'`. -/
def emitAttr (attr_name quote1 new_url quote2 : String) : String :=
  if quote1 = "" ∧ quote2 = "" then attr_name ++ "=\"" ++ new_url ++ "\""
  else attr_name ++ "=" ++ quote1 ++ new_url ++ quote2

/-- `f'{prefix}{quote1}{new_url}{quote2}{suffix}'`. -/
def emitCss (pre quote1 new_url quote2 suf : String) : String :=
  pre ++ quote1 ++ new_url ++ quote2 ++ suf

/-- The CDN allow-list `external_services`. -/
def externalServices : List String :=
  ["cdnjs.cloudflare.com", "cdn.jsdelivr.net", "unpkg.com", "maxcdn.bootstrapcdn.com"]

/-- `fix_url_attribute` (lines 490-551): rewrite of a matched HTML attribute. -/
def fix_url_attribute (cwd base_dir : String) (fs : List String) (file_path : String)
    (g0 attr_name quote1 url quote2 : String) : String :=
  if startsWithAny url ["http://", "https://", "data:", "javascript:", "#", "mailto:", "tel:", "blob:"] then g0
  else if url = "" ∨ pyStripWs url = "" then g0
  else if strStartsWith url "//" then
    if existsLocal cwd base_dir fs (pyLstrip url '/') then
      emitAttr attr_name quote1 (mkPreviewUrl (pyLstrip url '/')) quote2
    else g0
  else if strStartsWith url "/" ∧ existsLocal cwd base_dir fs (pyLstrip url '/') then
    emitAttr attr_name quote1 (mkPreviewUrl (pyLstrip url '/')) quote2
  else if containsAny url externalServices ∧ ¬ existsLocal cwd base_dir fs (pyLstrip url '/') = true then g0
  else emitAttr attr_name quote1 (mkPreviewUrl (resolve_relative_path file_path url)) quote2

/-- `fix_css_url` (lines 553-618): rewrite of a `url(...)` occurrence found in
a `style=` attribute. -/
def fix_css_url (cwd base_dir : String) (fs : List String) (file_path : String)
    (g0 pre quote1 url quote2 suf : String) : String :=
  if startsWithAny url ["http://", "https://", "data:", "javascript:", "blob:"] then g0
  else if url = "" then g0
  else if strStartsWith url "//" then
    if existsLocal cwd base_dir fs (pyLstrip url '/') then
      emitCss pre quote1 (mkPreviewUrl (pyLstrip url '/')) quote2 suf
    else g0
  else if (strStartsWith url "/fonts.googleapis.com/" ∨ strStartsWith url "fonts.googleapis.com/") ∧
      existsLocal cwd base_dir fs (pyLstrip url '/') then
    emitCss pre quote1 (mkPreviewUrl (resolve_relative_path file_path url)) quote2 suf
  else if (strStartsWith url "/fonts.gstatic.com/" ∨ strStartsWith url "fonts.gstatic.com/") ∧
      existsLocal cwd base_dir fs (pyLstrip url '/') then
    emitCss pre quote1 (mkPreviewUrl (resolve_relative_path file_path url)) quote2 suf
  else if strStartsWith url "/" ∧ existsLocal cwd base_dir fs (pyLstrip url '/') then
    emitCss pre quote1 (mkPreviewUrl (resolve_relative_path file_path url)) quote2 suf
  else if containsAny url externalServices ∧ ¬ existsLocal cwd base_dir fs (pyLstrip url '/') = true then g0
  else emitCss pre quote1 (mkPreviewUrl (resolve_relative_path file_path url)) quote2 suf

/-- `fix_url_in_css` (lines 652-699): rewrite of a `url(...)` occurrence found
inside a `<style>` block (no domain-path special case; existing absolute paths
use the raw stripped path, not the resolver). -/
def fix_url_in_css (cwd base_dir : String) (fs : List String) (file_path : String)
    (g0 pre quote1 url quote2 suf : String) : String :=
  if startsWithAny url ["http://", "https://", "data:", "javascript:", "blob:"] then g0
  else if url = "" then g0
  else if strStartsWith url "//" then
    if existsLocal cwd base_dir fs (pyLstrip url '/') then
      emitCss pre quote1 (mkPreviewUrl (pyLstrip url '/')) quote2 suf
    else g0
  else if strStartsWith url "/" ∧ existsLocal cwd base_dir fs (pyLstrip url '/') then
    emitCss pre quote1 (mkPreviewUrl (pyLstrip url '/')) quote2 suf
  else if containsAny url externalServices ∧ ¬ existsLocal cwd base_dir fs (pyLstrip url '/') = true then g0
  else emitCss pre quote1 (mkPreviewUrl (resolve_relative_path file_path url)) quote2 suf

/-- `fix_src_url` (lines 705-741): rewrite of a `src: url(...)` declaration in
an `@font-face` block (`g1` is the `src:` part, `g2` the `url(` part). -/
def fix_src_url (cwd base_dir : String) (fs : List String) (file_path : String)
    (g0 g1 g2 quote1 url quote2 suf : String) : String :=
  if startsWithAny url ["http://", "https://", "data:", "javascript:", "blob:"] then g0
  else if url = "" then g0
  else if strStartsWith url "//" then
    if existsLocal cwd base_dir fs (pyLstrip url '/') then
      g1 ++ g2 ++ quote1 ++ mkPreviewUrl (pyLstrip url '/') ++ quote2 ++ suf
    else g0
  else if strStartsWith url "/" ∧ existsLocal cwd base_dir fs (pyLstrip url '/') then
    g1 ++ g2 ++ quote1 ++ mkPreviewUrl (pyLstrip url '/') ++ quote2 ++ suf
  else g1 ++ g2 ++ quote1 ++ mkPreviewUrl (resolve_relative_path file_path url) ++ quote2 ++ suf

/-- `fix_remaining_url` (lines 779-792): the final catch-all for
`url(//...)` patterns. -/
def fix_remaining_url (cwd base_dir : String) (fs : List String)
    (g0 pre quote1 url quote2 suf : String) : String :=
  if strStartsWith url "//" ∧ existsLocal cwd base_dir fs (pyLstrip url '/') then
    emitCss pre quote1 (mkPreviewUrl (pyLstrip url '/')) quote2 suf
  else g0

/-- `fix_css_url_in_file` (lines 906-936): the CSS `url()` rewrite applied by
the asset proxy when serving a `.css` file; `asset_path` is the proxied path
of that file. -/
def fix_css_url_in_file (cwd base_dir : String) (fs : List String) (asset_path : String)
    (g0 pre quote1 url quote2 suf : String) : String :=
  if startsWithAny url ["http://", "https://", "//", "data:", "javascript:", "blob:"] then g0
  else if url = "" then g0
  else if strStartsWith url "/" ∧ existsLocal cwd base_dir fs (pyLstrip url '/') then
    emitCss pre quote1 (mkPreviewUrl (pyLstrip url '/')) quote2 suf
  else if strStartsWith url "/" = false then
    emitCss pre quote1 (mkPreviewUrl (resolve_relative_path asset_path url)) quote2 suf
  else g0

/-! ## The scanning engine

`re.sub` with a callback is modelled as a left-to-right scan: at each
position the concrete pattern is attempted (each pattern below is compiled
by hand into a deterministic matcher that agrees with Python backtracking
semantics for that pattern); on success the replacement is emitted and the
scan resumes after the matched span, otherwise it advances one character.
The character *preceding* the current position (for `\b`) is threaded
through. -/

/-- A match attempt at the current position: replacement text, last character
of the matched span, and the remaining input after the span. -/
def StepFn : Type := Option Char → List Char → Option (List Char × Char × List Char)

/-- Fuelled `re.sub` scan. -/
def reSubGo (step : StepFn) : Nat → Option Char → List Char → List Char
  | 0, _, s => s
  | _ + 1, _, [] => []
  | f + 1, prev, c :: cs =>
    match step prev (c :: cs) with
    | some (repl, lastC, rest) => repl ++ reSubGo step f (some lastC) rest
    | none => c :: reSubGo step f (some c) cs

/-- `re.sub(pattern, callback, s)`. -/
def reSub (step : StepFn) (s : List Char) : List Char := reSubGo step (s.length + 1) none s

/-- Whether the scan would find any match (used to state that a pass is the
identity on unrecognized text). -/
def reHasMatchGo (step : StepFn) : Nat → Option Char → List Char → Bool
  | 0, _, _ => false
  | _ + 1, _, [] => false
  | f + 1, prev, c :: cs => (step prev (c :: cs)).isSome || reHasMatchGo step f (some c) cs

def reHasMatch (step : StepFn) (s : List Char) : Bool := reHasMatchGo step (s.length + 1) none s

/-- Case-insensitive literal match returning the original matched text. -/
def matchLitCI : List Char → List Char → Option (List Char × List Char)
  | [], s => some ([], s)
  | _ :: _, [] => none
  | l :: ls, c :: cs =>
    if c.toLower = l.toLower then
      match matchLitCI ls cs with
      | some (m, r) => some (c :: m, r)
      | none => none
    else none

/-- Case-insensitive substring search (`re.search` of a literal). -/
def hasSubstrCI (lit : List Char) : List Char → Bool
  | [] => lit.isEmpty
  | c :: cs => (matchLitCI lit (c :: cs)).isSome || hasSubstrCI lit cs

/-- The tail `(["']?)([^)"']+)(["']?\s*)(\))` shared by the CSS `url()`
patterns: optional opening quote, a nonempty run excluding `)"'`, an optional
closing quote with trailing whitespace, then `)`.  Returns
`(quote1, value, quote2-with-space, rest)`. -/
def urlInner (s : List Char) : Option (List Char × List Char × List Char × List Char) :=
  let (q1, body) :=
    match s with
    | c :: cs => if quoteChar c then ([c], cs) else (([] : List Char), s)
    | [] => (([] : List Char), s)
  let (val, r1) := body.span fun c => !((c == ')') || quoteChar c)
  if val = [] then none
  else
    match r1 with
    | ')' :: r2 => some (q1, val, [], r2)
    | c :: cs =>
      if quoteChar c then
        let (ws, r3) := cs.span isPySpace
        match r3 with
        | ')' :: r4 => some (q1, val, c :: ws, r4)
        | _ => none
      else none
    | [] => none

/-- Matcher for `(url\s*\(\s*)` returning the captured original text and the
rest. -/
def urlOpen (s : List Char) : Option (List Char × List Char) :=
  match matchLitCI "url".data s with
  | none => none
  | some (u, r1) =>
    let (w1, r2) := r1.span isPySpace
    match r2 with
    | '(' :: r3 =>
      let (w2, r4) := r3.span isPySpace
      some (u ++ w1 ++ '(' :: w2, r4)
    | _ => none

/-- Step for `(url\s*\(\s*)(["']?)([^)"']+)(["']?\s*)(\))`; when
`requireSlashes` is set, the value group is `(//[^)"']+)` instead (the
catch-all pass).  `fixer` consumes `(g0, prefix, quote1, url, quote2, suffix)`. -/
def cssUrlStep (requireSlashes : Bool)
    (fixer : String → String → String → String → String → String → String) : StepFn := fun _ s =>
  match urlOpen s with
  | none => none
  | some (g1, r4) =>
    match urlInner r4 with
    | none => none
    | some (q1, val, q4, rest) =>
      if requireSlashes ∧ ¬ (val.take 2 = ['/', '/'] ∧ 3 ≤ val.length) then none
      else
        let g0 := g1 ++ q1 ++ val ++ q4 ++ [')']
        let repl := fixer (String.mk g0) (String.mk g1) (String.mk q1) (String.mk val)
          (String.mk q4) ")"
        some (repl.data, ')', rest)

/-- Step for `(src\s*:\s*)(url\s*\(\s*)(["']?)([^)"']+)(["']?\s*)(\))` with
`fix_src_url`. -/
def srcUrlStep (cwd base_dir : String) (fs : List String) (file_path : String) : StepFn :=
  fun _ s =>
  match matchLitCI "src".data s with
  | none => none
  | some (t, r1) =>
    let (w1, r2) := r1.span isPySpace
    match r2 with
    | ':' :: r3 =>
      let (w2, r4) := r3.span isPySpace
      match urlOpen r4 with
      | none => none
      | some (g2, r5) =>
        match urlInner r5 with
        | none => none
        | some (q1, val, q4, rest) =>
          let g1 := t ++ w1 ++ ':' :: w2
          let g0 := g1 ++ g2 ++ q1 ++ val ++ q4 ++ [')']
          let repl := fix_src_url cwd base_dir fs file_path (String.mk g0) (String.mk g1)
            (String.mk g2) (String.mk q1) (String.mk val) (String.mk q4) ")"
          some (repl.data, ')', rest)
    | _ => none

/-- Step for `@font-face\s*\{([^}]+)\}`: the replacement re-runs the
`src: url(...)` pass and then the plain `url(...)` pass on the block content
(`fix_font_face`, lines 702-758). -/
def fontFaceStep (cwd base_dir : String) (fs : List String) (file_path : String) : StepFn :=
  fun _ s =>
  match matchLitCI "@font-face".data s with
  | none => none
  | some (_, r1) =>
    let (_, r2) := r1.span isPySpace
    match r2 with
    | '\x7b' :: r3 =>
      let (content, r4) := r3.span (· != '\x7d')
      if content = [] then none
      else
        match r4 with
        | '\x7d' :: r5 =>
          let c1 := reSub (srcUrlStep cwd base_dir fs file_path) content
          let c2 := reSub (cssUrlStep false (fix_url_in_css cwd base_dir fs file_path)) c1
          some ("@font-face\x7b".data ++ c2 ++ "\x7d".data, '\x7d', r5)
        | _ => none
    | _ => none

/-- Scan for the first case-insensitive `"</style>"`; returns the content
before it and the rest after it. -/
def findCloseStyle : List Char → Option (List Char × List Char)
  | [] => none
  | c :: cs =>
    match matchLitCI "</style>".data (c :: cs) with
    | some (_, rest) => some ([], rest)
    | none =>
      match findCloseStyle cs with
      | some (pre, rest) => some (c :: pre, rest)
      | none => none

/-- Step for `<style([^>]*)>((?:[^<]|<(?!/style>))*?)</style>` with
`fix_style_tag` (lines 647-772): the lazy body runs to the first
`</style>`; the replacement applies the `@font-face` pass and then the
`url()` pass to the body. -/
def styleTagStep (cwd base_dir : String) (fs : List String) (file_path : String) : StepFn :=
  fun _ s =>
  match matchLitCI "<style".data s with
  | none => none
  | some (_, r1) =>
    let (attrs, r2) := r1.span (· != '>')
    match r2 with
    | '>' :: r3 =>
      match findCloseStyle r3 with
      | none => none
      | some (content, rest) =>
        let c1 := reSub (fontFaceStep cwd base_dir fs file_path) content
        let c2 := reSub (cssUrlStep false (fix_url_in_css cwd base_dir fs file_path)) c1
        some ("<style".data ++ attrs ++ '>' :: c2 ++ "</style>".data, '>', rest)
    | _ => none

/-- Step for `(style=)(["'])([^"']+)(["'])` with `fix_style_attribute`
(lines 620-634): the body gets the `url()` pass with `fix_css_url`, and the
replacement closes with the *opening* quote character. -/
def styleAttrStep (cwd base_dir : String) (fs : List String) (file_path : String) : StepFn :=
  fun _ s =>
  match matchLitCI "style=".data s with
  | none => none
  | some (t, r1) =>
    match r1 with
    | q :: r2 =>
      if quoteChar q then
        let (content, r3) := r2.span fun c => ! quoteChar c
        if content = [] then none
        else
          match r3 with
          | q2 :: r4 =>
            if quoteChar q2 then
              let c1 := reSub (cssUrlStep false (fix_css_url cwd base_dir fs file_path)) content
              some (t ++ q :: c1 ++ [q], q2, r4)
            else none
          | [] => none
      else none
    | [] => none

/-- The attribute names of the pattern
`\b(href|src|action|background|poster|data-src|data-background|data-bg)`,
in alternation order. -/
def attrNames : List String :=
  ["href", "src", "action", "background", "poster", "data-src", "data-background", "data-bg"]

/-- A character allowed in the attribute value class `[^"'\s<>]`. -/
def attrValChar (c : Char) : Bool :=
  !(quoteChar c || isPySpace c || (c == '<') || (c == '>'))

/-- The pattern tail `\s*=\s*(["']?)([^"'\s<>]+)(["']?)` after a matched
attribute name. -/
def attrTail (cwd base_dir : String) (fs : List String) (file_path : String)
    (nameTxt rest : List Char) : Option (List Char × Char × List Char) :=
  let (ws1, r1) := rest.span isPySpace
  match r1 with
  | '=' :: r2 =>
    let (ws2, r3) := r2.span isPySpace
    let (q1, body) :=
      match r3 with
      | c :: cs => if quoteChar c then ([c], cs) else (([] : List Char), r3)
      | [] => (([] : List Char), r3)
    let (val, r4) := body.span attrValChar
    if val = [] then none
    else
      let (q2, r5) :=
        match r4 with
        | c :: cs => if quoteChar c then ([c], cs) else (([] : List Char), r4)
        | [] => (([] : List Char), r4)
      let matched := nameTxt ++ ws1 ++ '=' :: ws2 ++ q1 ++ val ++ q2
      let repl := fix_url_attribute cwd base_dir fs file_path (String.mk matched)
        (String.mk nameTxt) (String.mk q1) (String.mk val) (String.mk q2)
      some (repl.data, matched.getLastD ' ', r5)
  | _ => none

/-- Step for the attribute pattern (line 640) with `fix_url_attribute`:
word boundary, alternation over the names in order, then `attrTail`. -/
def attrStep (cwd base_dir : String) (fs : List String) (file_path : String) : StepFn :=
  fun prev s =>
  let boundary := match prev with
    | none => true
    | some c => ! isWordChar c
  if boundary then
    attrNames.findSome? fun n =>
      match matchLitCI n.data s with
      | some (txt, r) => attrTail cwd base_dir fs file_path txt r
      | none => none
  else none

/-- The catch-all `url(//...)` pass (line 794). -/
def remainingUrlStep (cwd base_dir : String) (fs : List String) : StepFn :=
  cssUrlStep true (fix_remaining_url cwd base_dir fs)

/-- Find the first match of `lit[^>]*>` (case-insensitive literal), returning
`(before, matched, after)`. -/
def findTagGo (lit : List Char) : List Char → Option (List Char × List Char × List Char)
  | [] => none
  | c :: cs =>
    let here : Option (List Char × List Char) :=
      match matchLitCI lit (c :: cs) with
      | some (t, r1) =>
        let (attrs, r2) := r1.span (· != '>')
        match r2 with
        | '>' :: r3 => some (t ++ attrs ++ ['>'], r3)
        | _ => none
      | none => none
    match here with
    | some (m, rest) => some ([], m, rest)
    | none =>
      match findTagGo lit cs with
      | some (pre, m, rest) => some (c :: pre, m, rest)
      | none => none

/-- The injected base tag (lines 805-808):
`<base href="{base_host}/preview-assets/{file_dir}/">` with the double-slash
and protocol fixups. -/
def baseTagFor (base_host file_path : String) : List Char :=
  let file_dir := dirOfPath file_path
  let base_url0 :=
    if file_dir = "" then base_host ++ "/preview-assets/"
    else base_host ++ "/preview-assets/" ++ file_dir ++ "/"
  let base_url := pyReplace (pyReplace base_url0 "//" "/") ":/" "://"
  ("<base href=\"" ++ base_url ++ "\">").data

/-- The base-tag injection block (lines 810-823): replace the first
`<base[^>]*>`, else insert after the first `<head[^>]*>`, else after the
first `<html[^>]*>` when the literal `<html` occurs, else wrap the whole
fragment. -/
def baseInject (base_host file_path : String) (content : List Char) : String :=
  let base_tag := baseTagFor base_host file_path
  match findTagGo "<base".data content with
  | some (pre, _, rest) => String.mk (pre ++ base_tag ++ rest)
  | none =>
    match findTagGo "<head".data content with
    | some (pre, m, rest) => String.mk (pre ++ m ++ "\n    ".data ++ base_tag ++ rest)
    | none =>
      if hasSubstrCI "<html".data content then
        match findTagGo "<html".data content with
        | some (pre, m, rest) =>
          String.mk (pre ++ m ++ "\n<head>".data ++ base_tag ++ "</head>".data ++ rest)
        | none => String.mk content
      else
        String.mk ("<html><head>".data ++ base_tag ++ "</head><body>".data ++ content ++
          "</body></html>".data)

/-- `process_html_for_preview` (lines 481-824): the attribute pass, the
`style=` pass, the `<style>` pass, the catch-all `url(//...)` pass, then
base-tag injection. -/
def process_html_for_preview (cwd base_dir : String) (fs : List String) (base_host : String)
    (html_content file_path : String) : String :=
  let s1 := reSub (attrStep cwd base_dir fs file_path) html_content.data
  let s2 := reSub (styleAttrStep cwd base_dir fs file_path) s1
  let s3 := reSub (styleTagStep cwd base_dir fs file_path) s2
  let s4 := reSub (remainingUrlStep cwd base_dir fs) s3
  baseInject base_host file_path s4

/-! ## The `/preview-assets/` endpoint -/

/-- The outcome of `preview_assets` (lines 849-892) up to the point where the
file to serve has been chosen: `abort(404)`, `abort(403)`, or serving the
resolved file. -/
inductive AssetOutcome where
  | notFound
  | forbidden
  | ok (full_path : String)
deriving DecidableEq, Repr

/-- `full_path` is absent or does not exist
(`not full_path or not os.path.exists(full_path)`). -/
def assetBad (fs : List String) : Option String → Bool
  | none => true
  | some p => ! fs.contains p

/-- One fallback attempt: `safe_path(t.lstrip('/'))` followed by the
existence check. -/
def tryAssetPath (cwd base_dir : String) (fs : List String) (t : String) : Option String :=
  match safe_path cwd base_dir (pyLstrip t '/') with
  | some q => if fs.contains q then some q else none
  | none => none

/-- Keep a found fallback result, else the previous `full_path`. -/
def optionOr : Option String → Option String → Option String
  | some q, _ => some q
  | none, y => y

/-- The `full_path` selection of `preview_assets` (lines 860-885): direct
resolution, then the slash variants, then the extension-completion list. -/
def assetLookup (cwd base_dir : String) (fs : List String) (ap : String) : Option String :=
  let fp0 := safe_path cwd base_dir ap
  let fp1 :=
    if assetBad fs fp0 then
      optionOr (([ap, pyLstrip ap '/', "/" ++ pyLstrip ap '/']).findSome?
        (tryAssetPath cwd base_dir fs)) fp0
    else fp0
  if assetBad fs fp1 then
    optionOr (([".css", ".js", ".png", ".jpg", ".jpeg", ".gif", ".svg", ".woff", ".woff2",
      ".ttf", ".eot"]).findSome? (fun e => tryAssetPath cwd base_dir fs (ap ++ e))) fp1
  else fp1

/-- Resolution logic of `preview_assets`: strip slashes (empty means 404),
resolve through `safe_path` with the fallbacks, 404 when nothing exists, then
the final containment double-check guarding the 403. -/
def preview_assets_resolve (cwd base_dir : String) (fs : List String)
    (asset_path : String) : AssetOutcome :=
  let ap := pyStrip asset_path '/'
  if ap = "" then .notFound
  else
    match assetLookup cwd base_dir fs ap with
    | none => .notFound
    | some p =>
      if ! fs.contains p then .notFound
      else if ! strStartsWith (pyAbspath cwd p) (pyAbspath cwd base_dir) then .forbidden
      else .ok p

/-! ## Basic lemmas about the string primitives -/

theorem isPrefixOf_refl (l : List Char) : l.isPrefixOf l = true := by
  induction l with
  | nil => rfl
  | cons c cs ih => simp [List.isPrefixOf_cons₂, ih]

theorem isPrefixOf_append_right (a b : List Char) : a.isPrefixOf (a ++ b) = true := by
  induction a with
  | nil => simp
  | cons c cs ih => simp [List.isPrefixOf_cons₂, ih]

theorem isPrefixOf_trans {a : List Char} : ∀ {b c : List Char}, a.isPrefixOf b = true →
    b.isPrefixOf c = true → a.isPrefixOf c = true := by
  induction a with
  | nil => intro b c _ _; simp
  | cons x xs ih =>
    intro b c h1 h2
    cases b with
    | nil => simp at h1
    | cons y ys =>
      cases c with
      | nil => simp at h2
      | cons z zs =>
        simp only [List.isPrefixOf_cons₂, Bool.and_eq_true, beq_iff_eq] at h1 h2 ⊢
        obtain ⟨rfl, h1⟩ := h1
        obtain ⟨rfl, h2⟩ := h2
        exact ⟨rfl, ih h1 h2⟩

/-- Transitivity of `str.startswith` through an intermediate prefix. -/
theorem strStartsWith_trans {s a b : String} (h1 : strStartsWith a b = true)
    (h2 : strStartsWith s a = true) : strStartsWith s b = true :=
  isPrefixOf_trans h1 h2

theorem startsWithAny_sub {url : String} {l l2 : List String}
    (h : startsWithAny url l = true) (hsub : ∀ x ∈ l, x ∈ l2) :
    startsWithAny url l2 = true := by
  simp only [startsWithAny, List.any_eq_true] at h ⊢
  obtain ⟨t, ht, hs⟩ := h
  exact ⟨t, hsub t ht, hs⟩

theorem mem_of_mem_dropLast {α} {x : α} {l : List α} (h : x ∈ l.dropLast) : x ∈ l :=
  List.dropLast_subset l h

/-! ## Lemmas about `splitChar` and `joinSep` -/

theorem splitChar_ne_nil (sep : Char) (l : List Char) : splitChar sep l ≠ [] := by
  cases l with
  | nil => simp [splitChar]
  | cons c cs =>
    unfold splitChar
    split
    · simp
    · split <;> simp

theorem splitChar_cons_sep (sep : Char) (l : List Char) :
    splitChar sep (sep :: l) = [] :: splitChar sep l := by
  conv_lhs => unfold splitChar
  rw [if_pos rfl]

theorem splitChar_cons_ne {sep c : Char} (h : c ≠ sep) (l : List Char) :
    ∃ t ts, splitChar sep l = t :: ts ∧ splitChar sep (c :: l) = (c :: t) :: ts := by
  cases hs : splitChar sep l with
  | nil => exact absurd hs (splitChar_ne_nil sep l)
  | cons t ts =>
    refine ⟨t, ts, rfl, ?_⟩
    conv_lhs => unfold splitChar
    rw [if_neg h, hs]

theorem splitChar_sep_not_mem (sep : Char) : ∀ (l : List Char), ∀ x ∈ splitChar sep l, sep ∉ x := by
  intro l
  induction l with
  | nil =>
    intro x hx
    simp [splitChar] at hx
    simp [hx]
  | cons c cs ih =>
    intro x hx
    by_cases hc : c = sep
    · subst hc
      rw [splitChar_cons_sep] at hx
      rcases List.mem_cons.mp hx with hx | hx
      · simp [hx]
      · exact ih x hx
    · obtain ⟨t, ts, hs, hs2⟩ := splitChar_cons_ne hc cs
      rw [hs2] at hx
      rcases List.mem_cons.mp hx with hx | hx
      · subst hx
        intro hmem
        rcases List.mem_cons.mp hmem with hmem | hmem
        · exact hc hmem.symm
        · exact ih t (by rw [hs]; exact List.mem_cons_self t ts) hmem
      · exact ih x (by rw [hs]; exact List.mem_cons_of_mem t hx)

theorem splitChar_of_not_mem {sep : Char} : ∀ {l : List Char}, sep ∉ l → splitChar sep l = [l] := by
  intro l
  induction l with
  | nil => intro _; rfl
  | cons c cs ih =>
    intro h
    have hc : c ≠ sep := fun he => h (he ▸ List.mem_cons_self c cs)
    obtain ⟨t, ts, hs, hs2⟩ := splitChar_cons_ne hc cs
    rw [hs2]
    have h2 := ih (fun hm => h (List.mem_cons_of_mem c hm))
    rw [hs] at h2
    injection h2 with ha hb
    subst ha
    subst hb
    rfl

theorem splitChar_append_sep {sep : Char} : ∀ (a b : List Char), sep ∉ a →
    splitChar sep (a ++ sep :: b) = a :: splitChar sep b := by
  intro a
  induction a with
  | nil => intro b _; simpa using splitChar_cons_sep sep b
  | cons c cs ih =>
    intro b h
    have hc : c ≠ sep := fun he => h (he ▸ List.mem_cons_self c cs)
    have hcs : sep ∉ cs := fun hm => h (List.mem_cons_of_mem c hm)
    obtain ⟨t, ts, hs, hs2⟩ := splitChar_cons_ne hc (cs ++ sep :: b)
    rw [List.cons_append, hs2]
    rw [ih b hcs] at hs
    injection hs with h1 h2
    rw [← h1, ← h2]

theorem joinSep_cons_ex (sep : Char) (x : List Char) (xs : List (List Char)) :
    ∃ t, joinSep sep (x :: xs) = x ++ t := by
  cases xs with
  | nil => exact ⟨[], by simp [joinSep]⟩
  | cons y rest => exact ⟨sep :: joinSep sep (y :: rest), rfl⟩

theorem splitChar_joinSep {sep : Char} : ∀ (ls : List (List Char)), ls ≠ [] →
    (∀ x ∈ ls, sep ∉ x) → splitChar sep (joinSep sep ls) = ls := by
  intro ls
  induction ls with
  | nil => intro h _; exact absurd rfl h
  | cons x xs ih =>
    intro _ hmem
    cases xs with
    | nil =>
      show splitChar sep (joinSep sep [x]) = [x]
      have : joinSep sep [x] = x := by simp [joinSep]
      rw [this]
      exact splitChar_of_not_mem (hmem x (List.mem_cons_self x []))
    | cons y rest =>
      show splitChar sep (x ++ sep :: joinSep sep (y :: rest)) = x :: y :: rest
      rw [splitChar_append_sep x _ (hmem x (by simp))]
      rw [ih (by simp) (fun z hz => hmem z (List.mem_cons_of_mem x hz))]

theorem splitChar_replicate_sep (sep : Char) : ∀ (n : Nat) (l : List Char),
    splitChar sep (List.replicate n sep ++ l) = List.replicate n [] ++ splitChar sep l := by
  intro n
  induction n with
  | zero => intro l; simp
  | succ m ih =>
    intro l
    rw [List.replicate_succ, List.cons_append, splitChar_cons_sep, ih, List.replicate_succ,
      List.cons_append]

/-! ## Lemmas about `normComps` -/

theorem normComps_nil (s : Nat) (acc : List (List Char)) : normComps s acc [] = acc := rfl

theorem normComps_cons_skip {s : Nat} {acc rest : List (List Char)} {comp : List Char}
    (h : comp = [] ∨ comp = ['.']) :
    normComps s acc (comp :: rest) = normComps s acc rest := by
  conv_lhs => unfold normComps
  rw [if_pos h]

theorem normComps_cons_push {s : Nat} {acc rest : List (List Char)} {comp : List Char}
    (h1 : ¬(comp = [] ∨ comp = ['.']))
    (h2 : comp ≠ dotdot ∨ (s = 0 ∧ acc = []) ∨ acc.getLast? = some dotdot) :
    normComps s acc (comp :: rest) = normComps s (acc ++ [comp]) rest := by
  conv_lhs => unfold normComps
  rw [if_neg h1, if_pos h2]

theorem normComps_cons_pop {s : Nat} {acc rest : List (List Char)} {comp : List Char}
    (h1 : ¬(comp = [] ∨ comp = ['.']))
    (h2 : ¬(comp ≠ dotdot ∨ (s = 0 ∧ acc = []) ∨ acc.getLast? = some dotdot))
    (h3 : acc ≠ []) :
    normComps s acc (comp :: rest) = normComps s acc.dropLast rest := by
  conv_lhs => unfold normComps
  rw [if_neg h1, if_neg h2, if_pos h3]

/-- Every element of the processed stack came from the stack or the input. -/
theorem normComps_mem {s : Nat} : ∀ (L acc : List (List Char)) (x : List Char),
    x ∈ normComps s acc L → x ∈ acc ∨ x ∈ L := by
  intro L
  induction L with
  | nil => intro acc x hx; exact Or.inl hx
  | cons comp rest ih =>
    intro acc x hx
    by_cases h1 : comp = [] ∨ comp = ['.']
    · rw [normComps_cons_skip h1] at hx
      rcases ih acc x hx with h | h
      · exact Or.inl h
      · exact Or.inr (List.mem_cons_of_mem _ h)
    · by_cases h2 : comp ≠ dotdot ∨ (s = 0 ∧ acc = []) ∨ acc.getLast? = some dotdot
      · rw [normComps_cons_push h1 h2] at hx
        rcases ih _ x hx with h | h
        · rcases List.mem_append.mp h with h | h
          · exact Or.inl h
          · simp at h
            exact Or.inr (h ▸ List.mem_cons_self comp rest)
        · exact Or.inr (List.mem_cons_of_mem _ h)
      · by_cases h3 : acc ≠ []
        · rw [normComps_cons_pop h1 h2 h3] at hx
          rcases ih _ x hx with h | h
          · exact Or.inl (mem_of_mem_dropLast h)
          · exact Or.inr (List.mem_cons_of_mem _ h)
        · unfold normComps at hx
          rw [if_neg h1, if_neg h2, if_neg h3] at hx
          rcases ih acc x hx with h | h
          · exact Or.inl h
          · exact Or.inr (List.mem_cons_of_mem _ h)

/-- Element-wise invariant of the stack: components are nonempty, not `'.'`,
and contain no separator. -/
theorem normComps_elems {s : Nat} : ∀ (L acc : List (List Char)),
    (∀ x ∈ L, '/' ∉ x) → (∀ x ∈ acc, x ≠ [] ∧ x ≠ ['.'] ∧ '/' ∉ x) →
    ∀ x ∈ normComps s acc L, x ≠ [] ∧ x ≠ ['.'] ∧ '/' ∉ x := by
  intro L
  induction L with
  | nil => intro acc _ hacc x hx; exact hacc x hx
  | cons comp rest ih =>
    intro acc hL hacc x hx
    have hLrest : ∀ x ∈ rest, '/' ∉ x := fun y hy => hL y (List.mem_cons_of_mem _ hy)
    by_cases h1 : comp = [] ∨ comp = ['.']
    · rw [normComps_cons_skip h1] at hx
      exact ih acc hLrest hacc x hx
    · by_cases h2 : comp ≠ dotdot ∨ (s = 0 ∧ acc = []) ∨ acc.getLast? = some dotdot
      · rw [normComps_cons_push h1 h2] at hx
        refine ih _ hLrest ?_ x hx
        intro y hy
        rcases List.mem_append.mp hy with h | h
        · exact hacc y h
        · simp at h
          subst h
          push_neg at h1
          exact ⟨h1.1, h1.2, hL _ (List.mem_cons_self _ _)⟩
      · by_cases h3 : acc ≠ []
        · rw [normComps_cons_pop h1 h2 h3] at hx
          exact ih _ hLrest (fun y hy => hacc y (mem_of_mem_dropLast hy)) x hx
        · unfold normComps at hx
          rw [if_neg h1, if_neg h2, if_neg h3] at hx
          exact ih acc hLrest hacc x hx

/-- Shape invariant of the stack: the `'..'` components form a leading run,
and none occur when the path is absolute. -/
def DDShape (s : Nat) (acc : List (List Char)) : Prop :=
  ∃ k gs, acc = List.replicate k dotdot ++ gs ∧ (∀ x ∈ gs, x ≠ dotdot) ∧ (s ≠ 0 → k = 0)

theorem ddShape_nil (s : Nat) : DDShape s [] := ⟨0, [], rfl, by simp, fun _ => rfl⟩

theorem ddShape_append_ne {s : Nat} {acc : List (List Char)} {comp : List Char}
    (h : DDShape s acc) (hc : comp ≠ dotdot) : DDShape s (acc ++ [comp]) := by
  obtain ⟨k, gs, rfl, hgs, hk⟩ := h
  refine ⟨k, gs ++ [comp], by rw [List.append_assoc], ?_, hk⟩
  intro x hx
  rcases List.mem_append.mp hx with h | h
  · exact hgs x h
  · simp at h
    subst h
    exact hc

theorem ddShape_append_dd_of_last {s : Nat} {acc : List (List Char)}
    (h : DDShape s acc) (hl : acc.getLast? = some dotdot) : DDShape s (acc ++ [dotdot]) := by
  obtain ⟨k, gs, rfl, hgs, hk⟩ := h
  have hgs0 : gs = [] := by
    cases hgse : gs with
    | nil => rfl
    | cons g gs2 =>
      exfalso
      rw [hgse] at hl hgs
      rw [List.getLast?_append_of_ne_nil _ (by simp)] at hl
      exact hgs dotdot (List.mem_of_getLast?_eq_some hl) rfl
  subst hgs0
  have hk2 : s = 0 := by
    by_contra hs
    rw [hk hs] at hl
    simp at hl
  refine ⟨k + 1, [], ?_, by simp, fun hs => absurd hk2 hs⟩
  rw [List.append_nil, List.append_nil, List.replicate_succ' k dotdot]

theorem ddShape_dropLast {s : Nat} {acc : List (List Char)} (h : DDShape s acc) :
    DDShape s acc.dropLast := by
  obtain ⟨k, gs, rfl, hgs, hk⟩ := h
  cases hgse : gs with
  | nil =>
    subst hgse
    rw [List.append_nil, List.dropLast_replicate]
    exact ⟨k - 1, [], by rw [List.append_nil], by simp, fun hs => by rw [hk hs]⟩
  | cons g gs2 =>
    subst hgse
    rw [List.dropLast_append_of_ne_nil _ (by simp)]
    exact ⟨k, (g :: gs2).dropLast, rfl, fun x hx => hgs x (mem_of_mem_dropLast hx), hk⟩

/-- The stack-shape invariant is preserved by the component loop. -/
theorem normComps_shape {s : Nat} : ∀ (L acc : List (List Char)),
    DDShape s acc → DDShape s (normComps s acc L) := by
  intro L
  induction L with
  | nil => intro acc h; exact h
  | cons comp rest ih =>
    intro acc hacc
    by_cases h1 : comp = [] ∨ comp = ['.']
    · rw [normComps_cons_skip h1]
      exact ih acc hacc
    · by_cases h2 : comp ≠ dotdot ∨ (s = 0 ∧ acc = []) ∨ acc.getLast? = some dotdot
      · rw [normComps_cons_push h1 h2]
        refine ih _ ?_
        by_cases hc : comp = dotdot
        · subst hc
          rcases h2 with h2 | h2 | h2
          · exact absurd rfl h2
          · obtain ⟨hs0, ha0⟩ := h2
            subst ha0
            exact ⟨1, [], by simp [List.replicate], by simp, fun hs => absurd hs0 hs⟩
          · exact ddShape_append_dd_of_last hacc h2
        · exact ddShape_append_ne hacc hc
      · by_cases h3 : acc ≠ []
        · rw [normComps_cons_pop h1 h2 h3]
          exact ih _ (ddShape_dropLast hacc)
        · unfold normComps
          rw [if_neg h1, if_neg h2, if_neg h3]
          exact ih acc hacc

/-- Re-processing a stack of well-formed ordinary components appends them
all unchanged. -/
theorem normComps_app (s : Nat) : ∀ (gs acc : List (List Char)),
    (∀ x ∈ gs, x ≠ [] ∧ x ≠ ['.'] ∧ x ≠ dotdot) → normComps s acc gs = acc ++ gs := by
  intro gs
  induction gs with
  | nil => intro acc _; simp [normComps_nil]
  | cons g rest ih =>
    intro acc hg
    obtain ⟨hg1, hg2, hg3⟩ := hg g (List.mem_cons_self _ _)
    rw [normComps_cons_push (by simp [hg1, hg2]) (Or.inl hg3)]
    rw [ih _ (fun x hx => hg x (List.mem_cons_of_mem _ hx))]
    simp

/-- Re-processing a leading `'..'` run over a relative path keeps it. -/
theorem normComps_dds (gs : List (List Char))
    (hgs : ∀ x ∈ gs, x ≠ [] ∧ x ≠ ['.'] ∧ x ≠ dotdot) : ∀ (m j : Nat),
    normComps 0 (List.replicate j dotdot) (List.replicate m dotdot ++ gs) =
      List.replicate (j + m) dotdot ++ gs := by
  intro m
  induction m with
  | zero =>
    intro j
    simpa using normComps_app 0 gs _ hgs
  | succ m ih =>
    intro j
    rw [List.replicate_succ, List.cons_append]
    have hstep : normComps 0 (List.replicate j dotdot)
        (dotdot :: (List.replicate m dotdot ++ gs)) =
        normComps 0 (List.replicate j dotdot ++ [dotdot]) (List.replicate m dotdot ++ gs) := by
      refine normComps_cons_push (by simp [dotdot]) ?_
      cases j with
      | zero => exact Or.inr (Or.inl ⟨rfl, by simp⟩)
      | succ n =>
        refine Or.inr (Or.inr ?_)
        rw [List.replicate_succ' n dotdot, List.getLast?_concat]
    rw [hstep, ← List.replicate_succ' j dotdot, ih (j + 1)]
    have : j + 1 + m = j + (m + 1) := by omega
    rw [this]

/-- Leading empty components (from leading separators) are skipped. -/
theorem normComps_replicate_nil (s : Nat) (acc : List (List Char)) : ∀ (n : Nat)
    (L : List (List Char)),
    normComps s acc (List.replicate n [] ++ L) = normComps s acc L := by
  intro n
  induction n with
  | zero => intro L; simp
  | succ m ih =>
    intro L
    rw [List.replicate_succ, List.cons_append, normComps_cons_skip (Or.inl rfl), ih]

/-- The possible values of `initial_slashes`. -/
theorem normSlashes_cases (l : List Char) :
    normSlashes l = 0 ∨ normSlashes l = 1 ∨ normSlashes l = 2 := by
  unfold normSlashes
  split
  · split
    · exact Or.inr (Or.inr rfl)
    · exact Or.inr (Or.inl rfl)
  · exact Or.inl rfl

/-- `initial_slashes` of a rebuilt normalized path. -/
theorem normSlashes_out {s : Nat} (hs : s = 0 ∨ s = 1 ∨ s = 2) {c : Char} (hc : c ≠ '/')
    (l : List Char) : normSlashes (List.replicate s '/' ++ c :: l) = s := by
  rcases hs with rfl | rfl | rfl
  · simp only [List.replicate, List.nil_append]
    unfold normSlashes
    rw [if_neg (by simp [hc])]
  · simp only [List.replicate, List.cons_append, List.nil_append]
    unfold normSlashes
    rw [if_pos (by simp), if_neg (by simp [hc])]
  · simp only [List.replicate, List.cons_append, List.nil_append]
    unfold normSlashes
    rw [if_pos (by simp), if_pos (by simp [hc])]

/-- `posixpath.normpath` is idempotent. -/
theorem pyNormpath_idem (p : String) : pyNormpath (pyNormpath p) = pyNormpath p := by
  have hsep : ∀ x ∈ splitChar '/' p.data, '/' ∉ x := splitChar_sep_not_mem '/' p.data
  have hsval := normSlashes_cases p.data
  have helems : ∀ x ∈ normComps (normSlashes p.data) [] (splitChar '/' p.data),
      x ≠ [] ∧ x ≠ ['.'] ∧ '/' ∉ x :=
    normComps_elems _ [] hsep (by simp)
  have hshape : DDShape (normSlashes p.data)
      (normComps (normSlashes p.data) [] (splitChar '/' p.data)) :=
    normComps_shape _ [] (ddShape_nil _)
  have hP : pyNormpath p =
      (if List.replicate (normSlashes p.data) '/' ++
          joinSep '/' (normComps (normSlashes p.data) [] (splitChar '/' p.data)) = []
        then "."
        else String.mk (List.replicate (normSlashes p.data) '/' ++
          joinSep '/' (normComps (normSlashes p.data) [] (splitChar '/' p.data)))) := rfl
  cases hF : normComps (normSlashes p.data) [] (splitChar '/' p.data) with
  | nil =>
    rw [hF] at hP
    rcases hsval with hs | hs | hs <;> rw [hs] at hP
    · simp only [List.replicate, joinSep, List.append_nil, if_pos rfl] at hP
      rw [hP]; decide
    · simp only [List.replicate, joinSep, List.append_nil] at hP
      rw [if_neg (by simp)] at hP
      rw [hP]; decide
    · simp only [List.replicate, joinSep, List.append_nil] at hP
      rw [if_neg (by simp)] at hP
      rw [hP]; decide
  | cons x xs =>
    obtain ⟨hx1, _, hx3⟩ := helems x (by rw [hF]; exact List.mem_cons_self x xs)
    obtain ⟨c, x2, rfl⟩ : ∃ c x2, x = c :: x2 := by
      cases x with
      | nil => exact absurd rfl hx1
      | cons c x2 => exact ⟨c, x2, rfl⟩
    have hc : c ≠ '/' := fun he => hx3 (he ▸ List.mem_cons_self c x2)
    obtain ⟨t, hjoin⟩ := joinSep_cons_ex '/' (c :: x2) xs
    rw [hF] at hP
    rw [hjoin] at hP
    have hout_ne : List.replicate (normSlashes p.data) '/' ++ ((c :: x2) ++ t) ≠ [] := by
      simp
    rw [if_neg hout_ne] at hP
    rw [hP]
    have hdata : (String.mk (List.replicate (normSlashes p.data) '/' ++ ((c :: x2) ++ t))).data
        = List.replicate (normSlashes p.data) '/' ++ (c :: (x2 ++ t)) := by simp
    have hslash2 : normSlashes (String.mk (List.replicate (normSlashes p.data) '/' ++
        ((c :: x2) ++ t))).data = normSlashes p.data := by
      rw [hdata]
      exact normSlashes_out hsval hc (x2 ++ t)
    have hsplit2 : splitChar '/' (String.mk (List.replicate (normSlashes p.data) '/' ++
        ((c :: x2) ++ t))).data =
        List.replicate (normSlashes p.data) [] ++ (c :: x2) :: xs := by
      rw [hdata]
      have h1 : splitChar '/' (List.replicate (normSlashes p.data) '/' ++ (c :: (x2 ++ t))) =
          List.replicate (normSlashes p.data) [] ++ splitChar '/' (c :: (x2 ++ t)) :=
        splitChar_replicate_sep '/' _ _
      rw [h1]
      have h2 : (c :: (x2 ++ t)) = joinSep '/' ((c :: x2) :: xs) := by
        rw [hjoin]; simp
      rw [h2, splitChar_joinSep _ (by simp) ?_]
      intro y hy
      rcases List.mem_cons.mp hy with hy | hy
      · subst hy; exact hx3
      · exact (helems y (by rw [hF]; exact List.mem_cons_of_mem _ hy)).2.2
    have hcomps2 : normComps (normSlashes p.data) []
        (List.replicate (normSlashes p.data) [] ++ (c :: x2) :: xs) = (c :: x2) :: xs := by
      rw [normComps_replicate_nil]
      obtain ⟨k, gs, hkgs, hgs, hk⟩ := hshape
      rw [hF] at hkgs
      have hgs_elems : ∀ y ∈ gs, y ≠ [] ∧ y ≠ ['.'] ∧ y ≠ dotdot := by
        intro y hy
        have hymem : y ∈ (c :: x2) :: xs := by
          rw [← hF] at hkgs ⊢
          rw [hkgs]
          exact List.mem_append_right _ hy
        have := helems y (by rw [hF]; exact hymem)
        exact ⟨this.1, this.2.1, hgs y hy⟩
      by_cases hs0 : normSlashes p.data = 0
      · rw [hs0]
        rw [hkgs]
        simpa using normComps_dds gs hgs_elems k 0
      · rw [hk hs0] at hkgs
        simp at hkgs
        rw [hkgs]
        exact normComps_app _ _ [] hgs_elems
    show pyNormpath _ = _
    simp only [pyNormpath, hslash2, hsplit2, hcomps2, hjoin]
    rw [if_neg hout_ne]

theorem isPrefixOf_ex : ∀ {a b : List Char}, a.isPrefixOf b = true → ∃ t, b = a ++ t := by
  intro a
  induction a with
  | nil => intro b _; exact ⟨b, rfl⟩
  | cons x xs ih =>
    intro b h
    cases b with
    | nil => simp at h
    | cons y ys =>
      simp only [List.isPrefixOf_cons₂, Bool.and_eq_true, beq_iff_eq] at h
      obtain ⟨rfl, h⟩ := h
      obtain ⟨t, rfl⟩ := ih h
      exact ⟨t, rfl⟩

theorem not_startsWith_slash_head {s : String} (h : strStartsWith s "/" = false) :
    ∀ c t, s.data = c :: t → c ≠ '/' := by
  intro c t hd hc
  subst hc
  have h2 : strStartsWith s "/" = true := by
    show List.isPrefixOf ['/'] s.data = true
    rw [hd]
    simp [List.isPrefixOf_cons₂]
  rw [h2] at h
  cases h

/-- Splitting at an explicit separator splits the two sides independently. -/
theorem splitChar_append_sep_all {sep : Char} : ∀ (a b : List Char),
    splitChar sep (a ++ sep :: b) = splitChar sep a ++ splitChar sep b := by
  intro a
  induction a with
  | nil =>
    intro b
    rw [List.nil_append, splitChar_cons_sep]
    rfl
  | cons c cs ih =>
    intro b
    by_cases hc : c = sep
    · subst hc
      rw [List.cons_append, splitChar_cons_sep, splitChar_cons_sep, ih, List.cons_append]
    · obtain ⟨t, ts, hs, hs2⟩ := splitChar_cons_ne hc (cs ++ sep :: b)
      obtain ⟨t2, ts2, hs3, hs4⟩ := splitChar_cons_ne hc cs
      rw [List.cons_append, hs2, hs4]
      rw [ih b, hs3] at hs
      injection hs with ha hb
      subst ha
      subst hb
      rfl

theorem splitChar_chars {sep : Char} : ∀ (l : List Char), ∀ x ∈ splitChar sep l,
    ∀ c ∈ x, c ∈ l := by
  intro l
  induction l with
  | nil =>
    intro x hx c hc
    simp [splitChar] at hx
    subst hx
    simp at hc
  | cons d cs ih =>
    intro x hx c hc
    by_cases hd : d = sep
    · subst hd
      rw [splitChar_cons_sep] at hx
      rcases List.mem_cons.mp hx with hx | hx
      · subst hx; simp at hc
      · exact List.mem_cons_of_mem _ (ih x hx c hc)
    · obtain ⟨t, ts, hs, hs2⟩ := splitChar_cons_ne hd cs
      rw [hs2] at hx
      rcases List.mem_cons.mp hx with hx | hx
      · subst hx
        rcases List.mem_cons.mp hc with hc | hc
        · exact hc ▸ List.mem_cons_self _ _
        · exact List.mem_cons_of_mem _ (ih t (hs ▸ List.mem_cons_self _ _) c hc)
      · exact List.mem_cons_of_mem _ (ih x (hs ▸ List.mem_cons_of_mem _ hx) c hc)

theorem joinSep_chars {sep : Char} : ∀ (ls : List (List Char)) {c : Char},
    c ∈ joinSep sep ls → c = sep ∨ ∃ x ∈ ls, c ∈ x := by
  intro ls
  induction ls with
  | nil => intro c hc; simp [joinSep] at hc
  | cons x xs ih =>
    intro c hc
    cases xs with
    | nil =>
      exact Or.inr ⟨x, List.mem_cons_self _ _, hc⟩
    | cons y rest =>
      rcases List.mem_append.mp hc with hc | hc
      · exact Or.inr ⟨x, List.mem_cons_self _ _, hc⟩
      · rcases List.mem_cons.mp hc with hc | hc
        · exact Or.inl hc
        · rcases ih hc with hc | ⟨z, hz, hcz⟩
          · exact Or.inl hc
          · exact Or.inr ⟨z, List.mem_cons_of_mem _ hz, hcz⟩

/-- Every character of a normalized path is a slash, a dot, or a character of
the input. -/
theorem pyNormpath_chars {p : String} {c : Char} (h : c ∈ (pyNormpath p).data) :
    c = '/' ∨ c = '.' ∨ c ∈ p.data := by
  simp only [pyNormpath] at h
  split at h
  · simp at h
    exact Or.inr (Or.inl h)
  · simp only [String.mk] at h
    rcases List.mem_append.mp h with h | h
    · exact Or.inl (List.eq_of_mem_replicate h)
    · rcases joinSep_chars _ h with h | ⟨x, hx, hcx⟩
      · exact Or.inl h
      · rcases normComps_mem _ _ x hx with hx2 | hx2
        · simp at hx2
        · exact Or.inr (Or.inr (splitChar_chars _ x hx2 c hcx))

theorem mapBS_id : ∀ {l : List Char}, '\\' ∉ l →
    l.map (fun c => if c = '\\' then '/' else c) = l := by
  intro l
  induction l with
  | nil => intro _; rfl
  | cons c cs ih =>
    intro h
    have hc : c ≠ '\\' := fun he => h (he ▸ List.mem_cons_self _ _)
    simp only [List.map_cons, if_neg hc]
    rw [ih (fun hm => h (List.mem_cons_of_mem _ hm))]

theorem pyReplaceBS_no_bs (s : String) : '\\' ∉ (pyReplaceBS s).data := by
  intro h
  simp only [pyReplaceBS] at h
  obtain ⟨c, _, hc⟩ := List.mem_map.mp h
  by_cases he : c = '\\' <;> simp [he] at hc

theorem pyReplaceBS_id {s : String} (h : '\\' ∉ s.data) : pyReplaceBS s = s := by
  simp only [pyReplaceBS, mapBS_id h]

/-- Normalizing a relative path whose components are `'..'`-free yields a
relative path with `'..'`-free components. -/
theorem pyNormpath_clean {r : String}
    (hnd : ∀ x ∈ splitChar '/' r.data, x ≠ dotdot)
    (hns : r.data.take 1 ≠ ['/']) :
    (∀ x ∈ splitChar '/' (pyNormpath r).data, x ≠ dotdot) ∧
    strStartsWith (pyNormpath r) "/" = false := by
  have hs0 : normSlashes r.data = 0 := by
    unfold normSlashes
    rw [if_neg hns]
  have hsep : ∀ x ∈ splitChar '/' r.data, '/' ∉ x := splitChar_sep_not_mem '/' r.data
  have helems : ∀ x ∈ normComps 0 [] (splitChar '/' r.data), x ≠ [] ∧ x ≠ ['.'] ∧ '/' ∉ x :=
    normComps_elems _ [] hsep (by simp)
  have hnodd : ∀ x ∈ normComps 0 [] (splitChar '/' r.data), x ≠ dotdot := by
    intro x hx
    rcases normComps_mem _ _ x hx with h | h
    · simp at h
    · exact hnd x h
  have hP : pyNormpath r =
      (if List.replicate (normSlashes r.data) '/' ++
          joinSep '/' (normComps (normSlashes r.data) [] (splitChar '/' r.data)) = []
        then "."
        else String.mk (List.replicate (normSlashes r.data) '/' ++
          joinSep '/' (normComps (normSlashes r.data) [] (splitChar '/' r.data)))) := rfl
  rw [hs0] at hP
  simp only [List.replicate, List.nil_append] at hP
  cases hF : normComps 0 [] (splitChar '/' r.data) with
  | nil =>
    rw [hF] at hP
    simp only [joinSep, if_pos rfl] at hP
    rw [hP]
    exact ⟨by decide, by decide⟩
  | cons x xs =>
    rw [hF] at hP
    obtain ⟨hx1, _, hx3⟩ := helems x (hF ▸ List.mem_cons_self x xs)
    obtain ⟨c, x2, rfl⟩ : ∃ c x2, x = c :: x2 := by
      cases x with
      | nil => exact absurd rfl hx1
      | cons c x2 => exact ⟨c, x2, rfl⟩
    have hc : c ≠ '/' := fun he => hx3 (he ▸ List.mem_cons_self _ _)
    obtain ⟨t, hjoin⟩ := joinSep_cons_ex '/' (c :: x2) xs
    rw [hjoin] at hP
    rw [if_neg (by simp)] at hP
    constructor
    · intro z hz
      rw [hP] at hz
      have hback : (c :: x2) ++ t = joinSep '/' ((c :: x2) :: xs) := hjoin.symm
      simp only [String.mk] at hz
      rw [hback, splitChar_joinSep _ (by simp) ?_] at hz
      · exact hnodd z (hF ▸ hz)
      · intro y hy
        rcases List.mem_cons.mp hy with hy | hy
        · subst hy; exact hx3
        · exact (helems y (hF ▸ List.mem_cons_of_mem _ hy)).2.2
    · rw [hP]
      show List.isPrefixOf ['/'] (c :: (x2 ++ t)) = false
      simp [List.isPrefixOf_cons₂, hc, Ne.symm hc]

/-- The final `.replace('\\', '/')` of the resolver is the identity on the
backslash-free normalized result, so the normalization facts survive it. -/
theorem finalReplace_clean {res : String}
    (hnd : ∀ x ∈ splitChar '/' res.data, x ≠ dotdot)
    (hns : res.data.take 1 ≠ ['/'])
    (hbs : '\\' ∉ res.data) :
    (∀ x ∈ splitChar '/' (pyReplaceBS (pyNormpath res)).data, x ≠ dotdot) ∧
    strStartsWith (pyReplaceBS (pyNormpath res)) "/" = false ∧
    '\\' ∉ (pyReplaceBS (pyNormpath res)).data := by
  have hclean := pyNormpath_clean hnd hns
  have hnb : '\\' ∉ (pyNormpath res).data := by
    intro hmem
    rcases pyNormpath_chars hmem with h | h | h
    · exact absurd h (by decide)
    · exact absurd h (by decide)
    · exact hbs h
  rw [pyReplaceBS_id hnb]
  exact ⟨hclean.1, hclean.2, hnb⟩

theorem resolveStep_dd (acc : List (List Char)) : resolveStep acc dotdot = acc.dropLast := by
  simp [resolveStep]

theorem resolveStep_push {acc : List (List Char)} {part : List Char} (h1 : part ≠ dotdot)
    (h2 : part ≠ [] ∧ part ≠ ['.']) : resolveStep acc part = acc ++ [part] := by
  simp only [resolveStep]
  rw [if_neg h1, if_pos h2]

theorem resolveStep_skip {acc : List (List Char)} {part : List Char} (h1 : part ≠ dotdot)
    (h2 : ¬(part ≠ [] ∧ part ≠ ['.'])) : resolveStep acc part = acc := by
  simp only [resolveStep]
  rw [if_neg h1, if_neg h2]

/-- Elements of the `../` loop result come from the initial segments or are
pushed plain segments — never `'..'`, `''` or `'.'`. -/
theorem resolveFold_mem : ∀ (rel parts : List (List Char)) (x : List Char),
    x ∈ rel.foldl resolveStep parts →
    x ∈ parts ∨ (x ∈ rel ∧ x ≠ dotdot ∧ x ≠ [] ∧ x ≠ ['.']) := by
  intro rel
  induction rel with
  | nil => intro parts x hx; exact Or.inl hx
  | cons part rest ih =>
    intro parts x hx
    rw [List.foldl_cons] at hx
    by_cases h1 : part = dotdot
    · subst h1
      rw [resolveStep_dd] at hx
      rcases ih _ x hx with h | h
      · exact Or.inl (mem_of_mem_dropLast h)
      · exact Or.inr ⟨List.mem_cons_of_mem _ h.1, h.2⟩
    · by_cases h2 : part ≠ [] ∧ part ≠ ['.']
      · rw [resolveStep_push h1 h2] at hx
        rcases ih _ x hx with h | h
        · rcases List.mem_append.mp h with h | h
          · exact Or.inl h
          · simp at h
            subst h
            exact Or.inr ⟨List.mem_cons_self _ _, h1, h2.1, h2.2⟩
        · exact Or.inr ⟨List.mem_cons_of_mem _ h.1, h.2⟩
      · rw [resolveStep_skip h1 h2] at hx
        rcases ih _ x hx with h | h
        · exact Or.inl h
        · exact Or.inr ⟨List.mem_cons_of_mem _ h.1, h.2⟩

/-- The stack is empty or begins with a nonempty segment. -/
def HeadOK (l : List (List Char)) : Prop := l = [] ∨ ∃ hh ht, l = hh :: ht ∧ hh ≠ []

theorem dropLast_cons_of_ne_nil {α} (x : α) {l : List α} (h : l ≠ []) :
    (x :: l).dropLast = x :: l.dropLast := by
  cases l with
  | nil => exact absurd rfl h
  | cons y ys => rfl

theorem headOK_dropLast {l : List (List Char)} (h : HeadOK l) : HeadOK l.dropLast := by
  rcases h with rfl | ⟨hh, ht, rfl, hne⟩
  · exact Or.inl rfl
  · cases ht with
    | nil => exact Or.inl rfl
    | cons a t =>
      rw [dropLast_cons_of_ne_nil _ (by simp)]
      exact Or.inr ⟨hh, _, rfl, hne⟩

theorem headOK_append {l : List (List Char)} (h : HeadOK l) {part : List Char}
    (hp : part ≠ []) : HeadOK (l ++ [part]) := by
  rcases h with rfl | ⟨hh, ht, rfl, hne⟩
  · exact Or.inr ⟨part, [], rfl, hp⟩
  · exact Or.inr ⟨hh, ht ++ [part], by simp, hne⟩

theorem resolveFold_head : ∀ (rel parts : List (List Char)), HeadOK parts →
    HeadOK (rel.foldl resolveStep parts) := by
  intro rel
  induction rel with
  | nil => intro parts h; exact h
  | cons part rest ih =>
    intro parts h
    rw [List.foldl_cons]
    by_cases h1 : part = dotdot
    · subst h1
      rw [resolveStep_dd]
      exact ih _ (headOK_dropLast h)
    · by_cases h2 : part ≠ [] ∧ part ≠ ['.']
      · rw [resolveStep_push h1 h2]
        exact ih _ (headOK_append h h2.1)
      · rw [resolveStep_skip h1 h2]
        exact ih _ h

theorem splitChar_dropWhile_nodd : ∀ (l : List Char),
    (∀ x ∈ splitChar '/' l, x ≠ dotdot) →
    ∀ x ∈ splitChar '/' (l.dropWhile (· == '/')), x ≠ dotdot := by
  intro l
  induction l with
  | nil => intro h x hx; exact h x hx
  | cons c cs ih =>
    intro h x hx
    by_cases hc : c = '/'
    · subst hc
      rw [List.dropWhile_cons, if_pos (by simp)] at hx
      refine ih ?_ x hx
      intro y hy
      exact h y (by rw [splitChar_cons_sep]; exact List.mem_cons_of_mem _ hy)
    · rw [List.dropWhile_cons, if_neg (by simp [hc])] at hx
      exact h x hx

theorem dropWhile_head_ne : ∀ (l : List Char) (c : Char) (t : List Char),
    l.dropWhile (· == '/') = c :: t → c ≠ '/' := by
  intro l
  induction l with
  | nil => intro c t h; simp at h
  | cons d cs ih =>
    intro c t h
    by_cases hd : d = '/'
    · subst hd
      rw [List.dropWhile_cons, if_pos (by simp)] at h
      exact ih c t h
    · rw [List.dropWhile_cons, if_neg (by simp [hd])] at h
      injection h with h1 _
      subst h1
      exact hd

/-- Facts about a nonempty `base_dir`: its components are `'..'`-free and the
first one is nonempty and starts the string with a non-slash character. -/
theorem dirOfPath_facts {B : String} (h1 : ∀ x ∈ splitChar '/' B.data, x ≠ dotdot)
    (h2 : strStartsWith B "/" = false) (hne : dirOfPath B ≠ "") :
    (∀ x ∈ splitChar '/' (dirOfPath B).data, x ≠ dotdot) ∧
    (∃ hh ht, splitChar '/' (dirOfPath B).data = hh :: ht ∧ hh ≠ []) ∧
    (∃ c t, (dirOfPath B).data = c :: t ∧ c ≠ '/') := by
  by_cases hmem : '/' ∈ B.data
  case neg =>
    exact absurd (by simp [dirOfPath, hmem]) hne
  have hBD : dirOfPath B = String.mk (joinSep '/' ((splitChar '/' B.data).dropLast)) := by
    simp [dirOfPath, hmem]
  have hls_ne : (splitChar '/' B.data).dropLast ≠ [] := by
    intro h0
    rw [h0] at hBD
    exact hne (by rw [hBD]; rfl)
  have hls_sub : ∀ x ∈ (splitChar '/' B.data).dropLast, x ∈ splitChar '/' B.data :=
    fun x hx => mem_of_mem_dropLast hx
  have hls_sep : ∀ x ∈ (splitChar '/' B.data).dropLast, '/' ∉ x :=
    fun x hx => splitChar_sep_not_mem '/' B.data x (hls_sub x hx)
  have hsplitBD : splitChar '/' (dirOfPath B).data = (splitChar '/' B.data).dropLast := by
    rw [hBD]
    exact splitChar_joinSep _ hls_ne hls_sep
  obtain ⟨c, cs, hcd⟩ : ∃ c cs, B.data = c :: cs := by
    cases hd : B.data with
    | nil => rw [hd] at hmem; simp at hmem
    | cons c cs => exact ⟨c, cs, rfl⟩
  have hcslash : c ≠ '/' := not_startsWith_slash_head h2 c cs hcd
  obtain ⟨t0, ts0, hs0, hs1⟩ := splitChar_cons_ne hcslash cs
  have hts0 : ts0 ≠ [] := by
    intro h0
    rw [hcd, hs1, h0] at hls_ne
    exact hls_ne rfl
  have hdropLast : (splitChar '/' B.data).dropLast = (c :: t0) :: ts0.dropLast := by
    rw [hcd, hs1]
    exact dropLast_cons_of_ne_nil _ hts0
  refine ⟨?_, ?_, ?_⟩
  · intro x hx
    rw [hsplitBD] at hx
    exact h1 x (hls_sub x hx)
  · exact ⟨c :: t0, ts0.dropLast, by rw [hsplitBD, hdropLast], by simp⟩
  · obtain ⟨t2, hj⟩ := joinSep_cons_ex '/' (c :: t0) ts0.dropLast
    refine ⟨c, t0 ++ t2, ?_, hcslash⟩
    rw [hBD]
    show joinSep '/' ((splitChar '/' B.data).dropLast) = c :: (t0 ++ t2)
    rw [hdropLast, hj]
    simp

theorem strData_append (s t : String) : (s ++ t).data = s.data ++ t.data := rfl

/-- Every character of `base_dir` is a slash or a character of the path. -/
theorem dirOfPath_chars {B : String} {c : Char} (h : c ∈ (dirOfPath B).data) :
    c = '/' ∨ c ∈ B.data := by
  simp only [dirOfPath] at h
  split at h
  · rcases joinSep_chars _ h with h | ⟨x, hx, hcx⟩
    · exact Or.inl h
    · exact Or.inr (splitChar_chars _ x (mem_of_mem_dropLast hx) c hcx)
  · simp at h

/-- Joining a clean relative remainder onto `base_dir` keeps the path
relative, backslash-free, and `'..'`-free. -/
theorem resolveJoin_clean (B X : String)
    (h1 : ∀ x ∈ splitChar '/' B.data, x ≠ dotdot)
    (h2 : strStartsWith B "/" = false)
    (hBbs : '\\' ∉ B.data)
    (hX_nodd : ∀ x ∈ splitChar '/' X.data, x ≠ dotdot)
    (hX_head : X.data.take 1 ≠ ['/'])
    (hXbs : '\\' ∉ X.data) :
    (∀ x ∈ splitChar '/' (if dirOfPath B = "" then X
      else dirOfPath B ++ "/" ++ X).data, x ≠ dotdot) ∧
    (if dirOfPath B = "" then X else dirOfPath B ++ "/" ++ X).data.take 1 ≠ ['/'] ∧
    '\\' ∉ (if dirOfPath B = "" then X else dirOfPath B ++ "/" ++ X).data := by
  by_cases hbd : dirOfPath B = ""
  · simp only [if_pos hbd]
    exact ⟨hX_nodd, hX_head, hXbs⟩
  · simp only [if_neg hbd]
    obtain ⟨hBD_nodd, _, ⟨c, t, hcd, hcs⟩⟩ := dirOfPath_facts h1 h2 hbd
    have hdata : (dirOfPath B ++ "/" ++ X).data = (dirOfPath B).data ++ '/' :: X.data := by
      rw [strData_append, strData_append, List.append_assoc]
      rfl
    refine ⟨?_, ?_, ?_⟩
    · intro x hx
      rw [hdata, splitChar_append_sep_all] at hx
      rcases List.mem_append.mp hx with hx | hx
      · exact hBD_nodd x hx
      · exact hX_nodd x hx
    · rw [hdata, hcd]
      simp [List.take, hcs]
    · rw [hdata]
      intro hmem
      rcases List.mem_append.mp hmem with hm | hm
      · rcases dirOfPath_chars hm with hm | hm
        · exact absurd hm (by decide)
        · exact hBbs hm
      · rcases List.mem_cons.mp hm with hm | hm
        · exact absurd hm (by decide)
        · exact hXbs hm

/-- The joined pre-normalization path is relative, backslash-free, and has
`'..'` components only when the URL smuggles them past the clamped `../`
branch. -/
theorem resolvePre_clean (B U : String)
    (hBbs : '\\' ∉ B.data) (hUbs : '\\' ∉ U.data)
    (h1 : ∀ x ∈ splitChar '/' B.data, x ≠ dotdot)
    (h2 : strStartsWith B "/" = false)
    (h3 : (∀ x ∈ splitChar '/' U.data, x ≠ dotdot) ∨ strStartsWith U "../" = true)
    (h4 : strStartsWith U ".//" = false) :
    (∀ x ∈ splitChar '/' (resolvePre B U).data, x ≠ dotdot) ∧
    (resolvePre B U).data.take 1 ≠ ['/'] ∧
    '\\' ∉ (resolvePre B U).data := by
  by_cases c1 : strStartsWith U "/" = true
  · have hres : resolvePre B U = pyLstrip U '/' := by
      simp only [resolvePre]
      rw [if_pos c1]
    have hU_nodd : ∀ x ∈ splitChar '/' U.data, x ≠ dotdot := by
      rcases h3 with h3 | h3
      · exact h3
      · exfalso
        obtain ⟨t, ht⟩ := isPrefixOf_ex (show List.isPrefixOf "../".data U.data = true from h3)
        obtain ⟨t2, ht2⟩ := isPrefixOf_ex (show List.isPrefixOf "/".data U.data = true from c1)
        rw [ht2] at ht
        injection ht with hh _
        exact absurd hh (by decide)
    rw [hres]
    have hdata : (pyLstrip U '/').data = U.data.dropWhile (· == '/') := rfl
    refine ⟨?_, ?_, ?_⟩
    · intro x hx
      rw [hdata] at hx
      exact splitChar_dropWhile_nodd U.data hU_nodd x hx
    · rw [hdata]
      cases hdw : U.data.dropWhile (· == '/') with
      | nil => simp
      | cons c t =>
        have hcne := dropWhile_head_ne U.data c t hdw
        simp [List.take, hcne]
    · rw [hdata]
      intro hmem
      exact hUbs (List.dropWhile_subset _ hmem)
  · have c1f : strStartsWith U "/" = false := by
      revert c1
      cases strStartsWith U "/" <;> simp
    by_cases c2 : strStartsWith U "../" = true
    · have hres : resolvePre B U = String.mk (joinSep '/'
          ((splitChar '/' U.data).foldl resolveStep
            (if dirOfPath B = "" then [] else splitChar '/' (dirOfPath B).data))) := by
        simp only [resolvePre]
        rw [if_neg c1, if_pos c2]
      have hP_nodd : ∀ x ∈ (if dirOfPath B = "" then ([] : List (List Char))
          else splitChar '/' (dirOfPath B).data), x ≠ dotdot := by
        by_cases hbd : dirOfPath B = ""
        · rw [if_pos hbd]; simp
        · rw [if_neg hbd]
          exact (dirOfPath_facts h1 h2 hbd).1
      have hP_head : HeadOK (if dirOfPath B = "" then ([] : List (List Char))
          else splitChar '/' (dirOfPath B).data) := by
        by_cases hbd : dirOfPath B = ""
        · rw [if_pos hbd]; exact Or.inl rfl
        · rw [if_neg hbd]
          obtain ⟨hh, ht, he, hne⟩ := (dirOfPath_facts h1 h2 hbd).2.1
          exact Or.inr ⟨hh, ht, he, hne⟩
      have hP_sep : ∀ x ∈ (if dirOfPath B = "" then ([] : List (List Char))
          else splitChar '/' (dirOfPath B).data), '/' ∉ x := by
        by_cases hbd : dirOfPath B = ""
        · rw [if_pos hbd]; simp
        · rw [if_neg hbd]
          exact splitChar_sep_not_mem '/' _
      have hP_chars : ∀ x ∈ (if dirOfPath B = "" then ([] : List (List Char))
          else splitChar '/' (dirOfPath B).data), ∀ ch ∈ x, ch = '/' ∨ ch ∈ B.data := by
        by_cases hbd : dirOfPath B = ""
        · rw [if_pos hbd]; simp
        · rw [if_neg hbd]
          intro x hx ch hch
          exact dirOfPath_chars (splitChar_chars _ x hx ch hch)
      have hfin_elems : ∀ x ∈ (splitChar '/' U.data).foldl resolveStep
          (if dirOfPath B = "" then ([] : List (List Char))
            else splitChar '/' (dirOfPath B).data),
          x ≠ dotdot ∧ '/' ∉ x ∧ ∀ ch ∈ x, ch = '/' ∨ ch ∈ B.data ∨ ch ∈ U.data := by
        intro x hx
        rcases resolveFold_mem _ _ x hx with h | ⟨hmem, hnd, _, _⟩
        · refine ⟨hP_nodd x h, hP_sep x h, fun ch hch => ?_⟩
          rcases hP_chars x h ch hch with hc | hc
          · exact Or.inl hc
          · exact Or.inr (Or.inl hc)
        · exact ⟨hnd, splitChar_sep_not_mem '/' _ x hmem,
            fun ch hch => Or.inr (Or.inr (splitChar_chars _ x hmem ch hch))⟩
      have hfin_head := resolveFold_head (splitChar '/' U.data) _ hP_head
      rw [hres]
      cases hfinal : (splitChar '/' U.data).foldl resolveStep
          (if dirOfPath B = "" then ([] : List (List Char))
            else splitChar '/' (dirOfPath B).data) with
      | nil =>
        refine ⟨?_, by simp [joinSep], by simp [joinSep]⟩
        intro x hx
        have hsp : splitChar '/' (String.mk (joinSep '/' ([] : List (List Char)))).data =
            [[]] := rfl
        rw [hsp] at hx
        have hxe : x = [] := by simpa using hx
        simp [hxe, dotdot]
      | cons f fs =>
        rw [hfinal] at hfin_elems hfin_head
        have hf_ne : f ≠ [] := by
          rcases hfin_head with h | ⟨hh, ht, he, hne⟩
          · simp at h
          · injection he with e1 _
            rw [e1]
            exact hne
        obtain ⟨hf_nd, hf_sep, _⟩ := hfin_elems f (List.mem_cons_self f fs)
        obtain ⟨fc, f2, rfl⟩ : ∃ fc f2, f = fc :: f2 := by
          cases f with
          | nil => exact absurd rfl hf_ne
          | cons fc f2 => exact ⟨fc, f2, rfl⟩
        have hfc : fc ≠ '/' := fun he => hf_sep (he ▸ List.mem_cons_self _ _)
        obtain ⟨t, hjoin⟩ := joinSep_cons_ex '/' (fc :: f2) fs
        refine ⟨?_, ?_, ?_⟩
        · intro x hx
          have hsp : splitChar '/' (String.mk (joinSep '/' ((fc :: f2) :: fs))).data =
              (fc :: f2) :: fs := by
            exact splitChar_joinSep _ (by simp) (fun y hy => (hfin_elems y hy).2.1)
          rw [hsp] at hx
          exact (hfin_elems x hx).1
        · show (joinSep '/' ((fc :: f2) :: fs)).take 1 ≠ ['/']
          rw [hjoin]
          simp [List.take, hfc]
        · show '\\' ∉ joinSep '/' ((fc :: f2) :: fs)
          intro hmem
          rcases joinSep_chars _ hmem with h | ⟨x, hx, hcx⟩
          · exact absurd h (by decide)
          · rcases (hfin_elems x hx).2.2 '\\' hcx with h | h | h
            · exact absurd h (by decide)
            · exact hBbs h
            · exact hUbs h
    · have hU3 : ∀ x ∈ splitChar '/' U.data, x ≠ dotdot := by
        rcases h3 with h3 | h3
        · exact h3
        · exact absurd h3 c2
      by_cases c3 : strStartsWith U "./" = true
      · have hres : resolvePre B U = (if dirOfPath B = "" then String.mk (U.data.drop 2)
            else dirOfPath B ++ "/" ++ String.mk (U.data.drop 2)) := by
          simp only [resolvePre]
          rw [if_neg c1, if_neg c2, if_pos c3]
        obtain ⟨rest, hrest⟩ :=
          isPrefixOf_ex (show List.isPrefixOf "./".data U.data = true from c3)
        have hdrop : U.data.drop 2 = rest := by rw [hrest]; rfl
        have hsplitU : splitChar '/' U.data = ['.'] :: splitChar '/' rest := by
          rw [hrest]
          obtain ⟨t, ts, hsa, hsb⟩ :=
            splitChar_cons_ne (show ('.' : Char) ≠ '/' by decide) ('/' :: rest)
          rw [splitChar_cons_sep] at hsa
          injection hsa with e1 e2
          show splitChar '/' ('.' :: '/' :: rest) = _
          rw [hsb, ← e1, ← e2]
        have hX_nodd : ∀ x ∈ splitChar '/' (String.mk rest).data, x ≠ dotdot := by
          intro x hx
          refine hU3 x ?_
          rw [hsplitU]
          exact List.mem_cons_of_mem _ hx
        have hX_head : (String.mk rest).data.take 1 ≠ ['/'] := by
          show rest.take 1 ≠ ['/']
          cases hr : rest with
          | nil => simp
          | cons rc rt =>
            have hrc : rc ≠ '/' := by
              intro he
              subst he
              have hpre : strStartsWith U ".//" = true := by
                show List.isPrefixOf ['.', '/', '/'] U.data = true
                rw [hrest, hr]
                simp [List.isPrefixOf_cons₂]
              rw [hpre] at h4
              cases h4
            simp [List.take, hrc]
        have hXbs : '\\' ∉ (String.mk rest).data := by
          show '\\' ∉ rest
          intro hmem
          refine hUbs ?_
          rw [hrest]
          exact List.mem_append_right _ hmem
        rw [hres, hdrop]
        exact resolveJoin_clean B (String.mk rest) h1 h2 hBbs hX_nodd hX_head hXbs
      · have hres : resolvePre B U =
            (if dirOfPath B = "" then U else dirOfPath B ++ "/" ++ U) := by
          simp only [resolvePre]
          rw [if_neg c1, if_neg c2, if_neg c3]
        have hX_head : U.data.take 1 ≠ ['/'] := by
          cases hu : U.data with
          | nil => simp
          | cons uc ut =>
            have huc := not_startsWith_slash_head c1f uc ut hu
            simp [List.take, huc]
        rw [hres]
        exact resolveJoin_clean B U h1 h2 hBbs hU3 hX_head hUbs

/-- Any accepted result of `safe_path` equals the resolved base directory or
extends it past a separator — the final containment guard, read off the
definition. -/
theorem safe_path_mem {cwd base_dir c p : String} (h : safe_path cwd base_dir c = some p) :
    p = pyAbspath cwd base_dir ∨
    strStartsWith p (pyAbspath cwd base_dir ++ "/") = true := by
  simp only [safe_path] at h
  split at h
  · exact Or.inl (Option.some.inj h).symm
  · split at h
    · exact absurd h (by simp)
    · rename_i hcond
      obtain rfl : _ = p := Option.some.inj h
      obtain hc1 | hc2 := not_and_or.mp hcond
      · exact Or.inr (by
          cases hx : strStartsWith (pyAbspath cwd (pyJoin base_dir
              (pyLstrip (pyLstrip (pyReplaceBS (pyNormpath c)) '/') '.')))
              (pyAbspath cwd base_dir ++ "/")
          · exact absurd hx hc1
          · rfl)
      · exact Or.inl (not_not.mp hc2)

/-- A string built from at least one leading slash starts with `/`. -/
theorem isPrefixOf_slash_out (s : Nat) (hs : s ≠ 0) (L : List Char) :
    List.isPrefixOf ['/'] ((if List.replicate s '/' ++ L = [] then ("." : String)
      else String.mk (List.replicate s '/' ++ L)).data) = true := by
  cases s with
  | zero => exact absurd rfl hs
  | succ n =>
    have hne : List.replicate (n + 1) '/' ++ L ≠ [] := by simp [List.replicate]
    rw [if_neg hne]
    simp [List.replicate, List.isPrefixOf_cons₂]

/-- `posixpath.normpath` preserves a leading slash. -/
theorem pyNormpath_abs {p : String} (h : strStartsWith p "/" = true) :
    strStartsWith (pyNormpath p) "/" = true := by
  have h' : List.isPrefixOf ['/'] p.data = true := h
  obtain ⟨t, ht⟩ : ∃ t, p.data = '/' :: t := by
    cases hd : p.data with
    | nil => rw [hd] at h'; simp at h'
    | cons c cs =>
      rw [hd] at h'
      simp only [List.isPrefixOf_cons₂, List.isPrefixOf_nil_left, Bool.and_true,
        beq_iff_eq] at h'
      exact ⟨cs, by rw [← h']⟩
  show List.isPrefixOf ['/'] (pyNormpath p).data = true
  simp only [pyNormpath, normSlashes, ht]
  have h1 : ('/' :: t).take 1 = ['/'] := by simp
  rw [if_pos h1]
  split
  · exact isPrefixOf_slash_out 2 (by decide) _
  · exact isPrefixOf_slash_out 1 (by decide) _

/-- `os.path.abspath` of an absolute path is absolute. -/
theorem pyAbspath_abs {cwd p : String} (h : strStartsWith p "/" = true) :
    strStartsWith (pyAbspath cwd p) "/" = true := by
  simp only [pyAbspath, h, if_pos]
  exact pyNormpath_abs h

theorem pyAbspath_shape (cwd x : String) : ∃ y, pyAbspath cwd x = pyNormpath y := by
  unfold pyAbspath
  split
  · exact ⟨x, rfl⟩
  · exact ⟨pyJoin cwd x, rfl⟩

/-- Every accepted result of `safe_path` is an `abspath` output. -/
theorem safe_path_some_shape {cwd base_dir c p : String}
    (h : safe_path cwd base_dir c = some p) : ∃ x, p = pyAbspath cwd x := by
  simp only [safe_path] at h
  split at h
  · exact ⟨base_dir, (Option.some.inj h).symm⟩
  · split at h
    · exact absurd h (by simp)
    · exact ⟨_, (Option.some.inj h).symm⟩

/-- With an absolute base directory, every accepted result of `safe_path` is
absolute. -/
theorem safe_path_abs {cwd base_dir c p : String} (hb : strStartsWith base_dir "/" = true)
    (h : safe_path cwd base_dir c = some p) : strStartsWith p "/" = true := by
  have hbase : strStartsWith (pyAbspath cwd base_dir) "/" = true := pyAbspath_abs hb
  obtain hp | hp := safe_path_mem h
  · rw [hp]; exact hbase
  · have h1 : List.isPrefixOf ['/'] (pyAbspath cwd base_dir).data = true := hbase
    have h2 : List.isPrefixOf (pyAbspath cwd base_dir).data
        (pyAbspath cwd base_dir ++ "/").data = true := by
      have he : (pyAbspath cwd base_dir ++ "/").data =
          (pyAbspath cwd base_dir).data ++ "/".data := rfl
      rw [he]
      exact isPrefixOf_append_right _ _
    exact isPrefixOf_trans (isPrefixOf_trans h1 h2) hp

/-- `abspath` is the identity on an absolute, already-normalized path. -/
theorem pyAbspath_of_normpath {cwd p : String} (habs : strStartsWith p "/" = true)
    (hshape : ∃ y, p = pyNormpath y) : pyAbspath cwd p = p := by
  obtain ⟨y, rfl⟩ := hshape
  unfold pyAbspath
  rw [if_pos habs]
  exact pyNormpath_idem y

/-- An accepted `safe_path` result passes the endpoint's final containment
double-check: the 403 branch of `preview_assets` is unreachable. -/
theorem safe_path_double_check {cwd base_dir c p : String}
    (hb : strStartsWith base_dir "/" = true) (h : safe_path cwd base_dir c = some p) :
    strStartsWith (pyAbspath cwd p) (pyAbspath cwd base_dir) = true := by
  have habs := safe_path_abs hb h
  have hnorm : ∃ y, p = pyNormpath y := by
    obtain ⟨x, rfl⟩ := safe_path_some_shape h
    exact pyAbspath_shape cwd x
  rw [pyAbspath_of_normpath habs hnorm]
  obtain hp | hp := safe_path_mem h
  · rw [hp]
    exact isPrefixOf_refl _
  · have h2 : List.isPrefixOf (pyAbspath cwd base_dir).data
        (pyAbspath cwd base_dir ++ "/").data = true := by
      have he : (pyAbspath cwd base_dir ++ "/").data =
          (pyAbspath cwd base_dir).data ++ "/".data := rfl
      rw [he]
      exact isPrefixOf_append_right _ _
    exact isPrefixOf_trans h2 hp

/-- A successful fallback attempt is a successful `safe_path` resolution. -/
theorem tryAssetPath_some {cwd base_dir : String} {fs : List String} {t q : String}
    (h : tryAssetPath cwd base_dir fs t = some q) :
    safe_path cwd base_dir (pyLstrip t '/') = some q := by
  unfold tryAssetPath at h
  split at h
  · rename_i q2 hq2
    split at h
    · rw [hq2, Option.some.inj h]
    · exact absurd h (by simp)
  · exact absurd h (by simp)

theorem optionOr_some {a b : Option String} {p : String} (h : optionOr a b = some p) :
    a = some p ∨ b = some p := by
  cases a with
  | some q => exact Or.inl h
  | none => exact Or.inr h

/-- One fallback stage either keeps the previous candidate or takes a fresh
lookup result. -/
theorem assetStep_some {fs : List String} {fb X : Option String} {p : String}
    (h : (if assetBad fs fb then optionOr X fb else fb) = some p) :
    X = some p ∨ fb = some p := by
  split at h
  · exact optionOr_some h
  · exact Or.inr h

/-- Every path chosen by the endpoint's lookup chain came out of `safe_path`. -/
theorem assetLookup_some {cwd base_dir : String} {fs : List String} {ap p : String}
    (h : assetLookup cwd base_dir fs ap = some p) :
    ∃ c, safe_path cwd base_dir c = some p := by
  simp only [assetLookup] at h
  rcases assetStep_some h with h2 | h2
  · obtain ⟨e, _, he⟩ := List.exists_of_findSome?_eq_some h2
    exact ⟨_, tryAssetPath_some he⟩
  · rcases assetStep_some h2 with h3 | h3
    · obtain ⟨e, _, he⟩ := List.exists_of_findSome?_eq_some h3
      exact ⟨_, tryAssetPath_some he⟩
    · exact ⟨ap, h3⟩

/-! ## Claim theorems -/

/-- C1: for an absolute base directory, `safe_path` either rejects (returns
`none`) or returns an absolute path equal to the resolved base directory or
extending it past a path separator; in particular the candidate resolving to
the sibling `/a/bb` of root `/a/b` is rejected. -/
theorem safe_path_containment (cwd base_dir cand : String)
    (hb : strStartsWith base_dir "/" = true) :
    (safe_path cwd base_dir cand = none ∨
      ∃ p, safe_path cwd base_dir cand = some p ∧ strStartsWith p "/" = true ∧
        (p = pyAbspath cwd base_dir ∨
          strStartsWith p (pyAbspath cwd base_dir ++ "/") = true)) ∧
    safe_path "/" "/a/b" "../a/bb" = none := by
  refine ⟨?_, by decide⟩
  cases hs : safe_path cwd base_dir cand with
  | none => exact Or.inl rfl
  | some p =>
    refine Or.inr ⟨p, rfl, ?_, safe_path_mem hs⟩
    have hbase : strStartsWith (pyAbspath cwd base_dir) "/" = true := pyAbspath_abs hb
    obtain hp | hp := safe_path_mem hs
    · rw [hp]; exact hbase
    · have h1 : List.isPrefixOf ['/'] (pyAbspath cwd base_dir).data = true := hbase
      have h2 : List.isPrefixOf (pyAbspath cwd base_dir).data
          (pyAbspath cwd base_dir ++ "/").data = true := by
        have he : (pyAbspath cwd base_dir ++ "/").data =
            (pyAbspath cwd base_dir).data ++ "/".data := rfl
        rw [he]
        exact isPrefixOf_append_right _ _
      exact isPrefixOf_trans (isPrefixOf_trans h1 h2) hp

/-- C1 witness: the containment theorem at root `/a/b` and candidate
`c.txt`, which is accepted as `/a/b/c.txt`. -/
theorem safe_path_containment_check :
    (safe_path "/" "/a/b" "c.txt" = none ∨
      ∃ p, safe_path "/" "/a/b" "c.txt" = some p ∧ strStartsWith p "/" = true ∧
        (p = pyAbspath "/" "/a/b" ∨
          strStartsWith p (pyAbspath "/" "/a/b" ++ "/") = true)) ∧
    safe_path "/" "/a/b" "../a/bb" = none :=
  safe_path_containment "/" "/a/b" "c.txt" (by decide)

/-- C2: the four table equalities of the relative-URL resolver, including the
clamped pop past the root on `resolve("index.html", "../../x")`. -/
theorem resolve_relative_path_table :
    resolve_relative_path "a/b/c.html" "../img.png" = "a/img.png" ∧
    resolve_relative_path "a/b/c.html" "./img.png" = "a/b/img.png" ∧
    resolve_relative_path "a/b/c.html" "/img.png" = "img.png" ∧
    resolve_relative_path "index.html" "../../x" = "x" := by
  refine ⟨by decide, by decide, by decide, by decide⟩

/-- C3 counterexample: the resolver's output can contain `..` segments after
its final normalization (a `..` inside a URL that does not *start* with `../`
survives `posixpath.normpath`; so does one in the containing path), and it is
not root-relative when the containing path is absolute or the URL starts with
`.//`. -/
theorem resolve_relative_path_not_normalized :
    resolve_relative_path "index.html" "a/../../x" = "../x" ∧
    resolve_relative_path "../a.html" "y" = "../y" ∧
    resolve_relative_path "/a/b.html" "x" = "/a/x" ∧
    resolve_relative_path "index.html" ".//x" = "/x" := by
  exact ⟨by decide, by decide, by decide, by decide⟩

/-- C3 (amended): provided the backslash-replaced containing path has no `..`
segment and does not begin with `/`, and the backslash-replaced URL either
has no `..` segment or begins with `../` (the clamped branch), and the URL
does not begin with `.//`, the resolver's result is forward-slash-only
(backslash-free), root-relative (no leading `/`), and free of `..`
segments. -/
theorem resolve_relative_path_normalized (base_path url : String)
    (h1 : ∀ x ∈ splitChar '/' (pyReplaceBS base_path).data, x ≠ dotdot)
    (h2 : strStartsWith (pyReplaceBS base_path) "/" = false)
    (h3 : (∀ x ∈ splitChar '/' (pyReplaceBS url).data, x ≠ dotdot) ∨
      strStartsWith (pyReplaceBS url) "../" = true)
    (h4 : strStartsWith (pyReplaceBS url) ".//" = false) :
    (∀ x ∈ splitChar '/' (resolve_relative_path base_path url).data, x ≠ dotdot) ∧
    strStartsWith (resolve_relative_path base_path url) "/" = false ∧
    '\\' ∉ (resolve_relative_path base_path url).data := by
  have hkey := resolvePre_clean (pyReplaceBS base_path) (pyReplaceBS url)
    (pyReplaceBS_no_bs _) (pyReplaceBS_no_bs _) h1 h2 h3 h4
  exact finalReplace_clean hkey.1 hkey.2.1 hkey.2.2

/-- C3 witness: the normalization theorem at the clamped table case
`resolve("a/b/c.html", "../img.png")`. -/
theorem resolve_relative_path_normalized_check :
    (∀ x ∈ splitChar '/' (resolve_relative_path "a/b/c.html" "../img.png").data,
      x ≠ dotdot) ∧
    strStartsWith (resolve_relative_path "a/b/c.html" "../img.png") "/" = false ∧
    '\\' ∉ (resolve_relative_path "a/b/c.html" "../img.png").data :=
  resolve_relative_path_normalized "a/b/c.html" "../img.png" (by decide) (by decide)
    (Or.inr (by decide)) (by decide)

/-- C5 counterexample: in the CSS rewrite a `url()` value beginning with `#`,
`mailto:` or `tel:` is not classified external — each is rewritten, not left
byte-identical. -/
theorem fix_css_url_hash_not_preserved :
    fix_css_url "/" "/proj" [] "index.html" "url(#a)" "url(" "" "#a" "" ")" ≠ "url(#a)" ∧
    fix_css_url "/" "/proj" [] "index.html" "url(mailto:a@b)" "url(" "" "mailto:a@b" "" ")" ≠
      "url(mailto:a@b)" ∧
    fix_css_url "/" "/proj" [] "index.html" "url(tel:123)" "url(" "" "tel:123" "" ")" ≠
      "url(tel:123)" := by
  exact ⟨by decide, by decide, by decide⟩

/-- C5 (amended): a URL beginning with `http://`, `https://`, `data:`,
`javascript:`, `#`, `mailto:`, `tel:` or `blob:` is classified external and
returned as the exact matched text by the HTML-attribute rewrite; the CSS
rewrites (inline style, `<style>` block, `@font-face src`, and the CSS-file
variant) do so only for URLs beginning with one of the five prefixes
`http://`, `https://`, `data:`, `javascript:`, `blob:`. -/
theorem external_urls_preserved (cwd base_dir : String) (fs : List String) (fp : String)
    (g0 a q1 url q2 pre suf g1 g2 : String) :
    (startsWithAny url
        ["http://", "https://", "data:", "javascript:", "#", "mailto:", "tel:", "blob:"] =
          true →
      fix_url_attribute cwd base_dir fs fp g0 a q1 url q2 = g0) ∧
    (startsWithAny url ["http://", "https://", "data:", "javascript:", "blob:"] = true →
      fix_css_url cwd base_dir fs fp g0 pre q1 url q2 suf = g0 ∧
      fix_url_in_css cwd base_dir fs fp g0 pre q1 url q2 suf = g0 ∧
      fix_src_url cwd base_dir fs fp g0 g1 g2 q1 url q2 suf = g0 ∧
      fix_css_url_in_file cwd base_dir fs fp g0 pre q1 url q2 suf = g0) := by
  constructor
  · intro h8
    simp [fix_url_attribute, h8]
  · intro h5
    have h6 : startsWithAny url
        ["http://", "https://", "//", "data:", "javascript:", "blob:"] = true :=
      startsWithAny_sub h5 (by intro x hx; fin_cases hx <;> simp)
    refine ⟨?_, ?_, ?_, ?_⟩
    · simp [fix_css_url, h5]
    · simp [fix_url_in_css, h5]
    · simp [fix_src_url, h5]
    · simp [fix_css_url_in_file, h6]

/-- C5 witness: the amended external-preservation theorem at a `#` attribute
URL — external for the attribute pass though not for the CSS passes — and at
a `https://` CSS URL. -/
theorem external_urls_preserved_check :
    fix_url_attribute "/" "/proj" [] "index.html" "href=\"#top\"" "href" "\"" "#top" "\"" =
      "href=\"#top\"" ∧
    fix_css_url "/" "/proj" [] "index.html" "url(https://cdn.example.com/x.css)" "url(" ""
        "https://cdn.example.com/x.css" "" ")" =
      "url(https://cdn.example.com/x.css)" :=
  ⟨(external_urls_preserved "/" "/proj" [] "index.html" "href=\"#top\"" "href" "\"" "#top"
      "\"" "url(" ")" "src:" "url(").1 (by decide),
   ((external_urls_preserved "/" "/proj" [] "index.html"
      "url(https://cdn.example.com/x.css)" "a" "" "https://cdn.example.com/x.css" "" "url("
      ")" "src:" "url(").2 (by decide)).1⟩

/-- Every branch of `fix_url_attribute` either preserves the match or goes
through the single attribute emitter. -/
theorem fix_url_attribute_shape (cwd base_dir : String) (fs : List String) (fp : String)
    (g0 attr q1 url q2 : String) :
    fix_url_attribute cwd base_dir fs fp g0 attr q1 url q2 = g0 ∨
    ∃ n, fix_url_attribute cwd base_dir fs fp g0 attr q1 url q2 = emitAttr attr q1 n q2 := by
  unfold fix_url_attribute
  repeat' split
  all_goals first
    | exact Or.inl rfl
    | exact Or.inr ⟨_, rfl⟩

/-- C10: whenever the attribute rewrite changes the occurrence, an unquoted
value is re-emitted enclosed in double quotes, and a quoted value keeps the
original quote characters around the new URL. -/
theorem fix_url_attribute_quoting (cwd base_dir : String) (fs : List String) (fp : String)
    (g0 attr q1 url q2 : String)
    (hch : fix_url_attribute cwd base_dir fs fp g0 attr q1 url q2 ≠ g0) :
    if q1 = "" ∧ q2 = "" then
      ∃ u, fix_url_attribute cwd base_dir fs fp g0 attr q1 url q2 = attr ++ "=\"" ++ u ++ "\""
    else
      ∃ u, fix_url_attribute cwd base_dir fs fp g0 attr q1 url q2 =
        attr ++ "=" ++ q1 ++ u ++ q2 := by
  obtain h | ⟨n, hn⟩ := fix_url_attribute_shape cwd base_dir fs fp g0 attr q1 url q2
  · exact absurd h hch
  · rw [hn]
    by_cases hq : q1 = "" ∧ q2 = "" <;> simp [emitAttr, hq] <;> exact ⟨n, rfl⟩

/-- C10 witness: the quoting theorem at a concrete unquoted attribute. -/
theorem fix_url_attribute_quoting_check :
    if ("" : String) = "" ∧ ("" : String) = "" then
      ∃ u, fix_url_attribute "/" "/proj" [] "index.html" "href=x" "href" "" "x" "" =
        "href" ++ "=\"" ++ u ++ "\""
    else
      ∃ u, fix_url_attribute "/" "/proj" [] "index.html" "href=x" "href" "" "x" "" =
        "href" ++ "=" ++ "" ++ u ++ "" :=
  fix_url_attribute_quoting "/" "/proj" [] "index.html" "href=x" "href" "" "x" "" (by decide)

/-- C8 counterexample: the CSS-file rewrite and the HTML-side CSS rewrite
disagree on a relative CDN-hostname URL with no matching local file:
`fix_css_url` preserves it as external, `fix_css_url_in_file` rewrites it. -/
theorem css_rewrites_disagree :
    fix_css_url "/" "/proj" [] "css/site.css" "url(unpkg.com/a.js)" "url(" ""
        "unpkg.com/a.js" "" ")" ≠
      fix_css_url_in_file "/" "/proj" [] "css/site.css" "url(unpkg.com/a.js)" "url(" ""
        "unpkg.com/a.js" "" ")" := by
  decide

/-- C8 (amended): the two CSS `url()` rewrites agree on URLs starting with the
five external prefixes (both preserve the occurrence) and on plain relative
URLs free of the special-case markers (both rewrite through the resolver with
the same containing path); they diverge on protocol-relative `//` URLs,
CDN-hostname URLs, missing absolute paths, and existing absolute paths with
normalizable segments. -/
theorem css_rewrites_partial_agreement (cwd base_dir : String) (fs : List String)
    (path : String) (g0 pre q1 url q2 suf : String) :
    (startsWithAny url ["http://", "https://", "data:", "javascript:", "blob:"] = true →
      fix_css_url cwd base_dir fs path g0 pre q1 url q2 suf = g0 ∧
      fix_css_url_in_file cwd base_dir fs path g0 pre q1 url q2 suf = g0) ∧
    (startsWithAny url ["http://", "https://", "data:", "javascript:", "blob:"] = false →
      url ≠ "" →
      strStartsWith url "/" = false →
      strStartsWith url "fonts.googleapis.com/" = false →
      strStartsWith url "fonts.gstatic.com/" = false →
      containsAny url externalServices = false →
      fix_css_url cwd base_dir fs path g0 pre q1 url q2 suf =
        fix_css_url_in_file cwd base_dir fs path g0 pre q1 url q2 suf) := by
  constructor
  · intro h5
    have h6 : startsWithAny url
        ["http://", "https://", "//", "data:", "javascript:", "blob:"] = true :=
      startsWithAny_sub h5 (by intro x hx; fin_cases hx <;> simp)
    exact ⟨by simp [fix_css_url, h5], by simp [fix_css_url_in_file, h6]⟩
  · intro h5 hne hslash hg1 hg2 hcdn
    have hss : strStartsWith url "//" = false := by
      cases hs2 : strStartsWith url "//"
      · rfl
      · exact absurd (@strStartsWith_trans url "//" "/" (by decide) hs2) (by simp [hslash])
    have hgg1 : strStartsWith url "/fonts.googleapis.com/" = false := by
      cases hs2 : strStartsWith url "/fonts.googleapis.com/"
      · rfl
      · exact absurd (@strStartsWith_trans url "/fonts.googleapis.com/" "/" (by decide) hs2)
          (by simp [hslash])
    have hgg2 : strStartsWith url "/fonts.gstatic.com/" = false := by
      cases hs2 : strStartsWith url "/fonts.gstatic.com/"
      · rfl
      · exact absurd (@strStartsWith_trans url "/fonts.gstatic.com/" "/" (by decide) hs2)
          (by simp [hslash])
    have h6 : startsWithAny url
        ["http://", "https://", "//", "data:", "javascript:", "blob:"] = false := by
      simp only [startsWithAny, List.any_eq_true] at h5 ⊢
      simp only [startsWithAny, List.any_cons, List.any_nil, Bool.or_eq_false_iff] at h5 ⊢
      exact ⟨h5.1, h5.2.1, hss, h5.2.2⟩
    simp [fix_css_url, fix_css_url_in_file, h5, h6, hne, hslash, hss, hg1, hg2, hgg1, hgg2,
      hcdn]

/-- C8 witness: the partial-agreement theorem at a concrete external URL and a
concrete plain relative URL. -/
theorem css_rewrites_partial_agreement_check :
    (fix_css_url "/" "/proj" [] "css/site.css" "url(https://e.com/a.png)" "url(" ""
        "https://e.com/a.png" "" ")" = "url(https://e.com/a.png)" ∧
     fix_css_url_in_file "/" "/proj" [] "css/site.css" "url(https://e.com/a.png)" "url(" ""
        "https://e.com/a.png" "" ")" = "url(https://e.com/a.png)") ∧
    fix_css_url "/" "/proj" [] "css/site.css" "url(img/a.png)" "url(" "" "img/a.png" "" ")" =
      fix_css_url_in_file "/" "/proj" [] "css/site.css" "url(img/a.png)" "url(" ""
        "img/a.png" "" ")" :=
  ⟨(css_rewrites_partial_agreement "/" "/proj" [] "css/site.css" "url(https://e.com/a.png)"
      "url(" "" "https://e.com/a.png" "" ")").1 (by decide),
   (css_rewrites_partial_agreement "/" "/proj" [] "css/site.css" "url(img/a.png)"
      "url(" "" "img/a.png" "" ")").2 (by decide) (by decide) (by decide) (by decide)
      (by decide) (by decide)⟩

set_option maxRecDepth 8192 in
/-- C4 counterexample: `process_html_for_preview` is not idempotent — on
`<a href=x>t` (no file `x` present) the second application turns the rewritten
`href="/preview-assets/x"` into `href="/preview-assets/preview-assets/x"`. -/
theorem process_html_not_idempotent :
    process_html_for_preview "/" "/proj" [] ""
        (process_html_for_preview "/" "/proj" [] "" "<a href=x>t" "index.html") "index.html" ≠
      process_html_for_preview "/" "/proj" [] "" "<a href=x>t" "index.html" := by
  decide

set_option maxRecDepth 8192 in
/-- C4 (amended): re-applying `process_html_for_preview` is a no-op on a
document whose URL occurrences are all external, but an already-rewritten
local reference receives a second `/preview-assets/` prefix (no recognition
of already-proxied URLs): the double application on `<a href=x>t` yields the
doubly-prefixed attribute. -/
theorem process_html_idempotence_scope :
    process_html_for_preview "/" "/proj" [] ""
        (process_html_for_preview "/" "/proj" [] ""
          "<a href=\"https://e.com/x\">t</a>" "index.html") "index.html" =
      process_html_for_preview "/" "/proj" [] ""
        "<a href=\"https://e.com/x\">t</a>" "index.html" ∧
    process_html_for_preview "/" "/proj" [] ""
        (process_html_for_preview "/" "/proj" [] "" "<a href=x>t" "index.html") "index.html" =
      "<html><head><base href=\"/preview-assets/\"></head><body><a href=\"/preview-assets/preview-assets/x\">t</body></html>" := by
  exact ⟨by decide, by decide⟩

/-- C7 counterexample: on the fragment `<html` (literal `<html` present but no
complete `<html...>` tag) the search on line 818 succeeds while the
substitution on line 819 matches nothing, so the output contains no base tag
at all — not exactly one. -/
theorem process_html_no_base_for_unclosed_html :
    process_html_for_preview "/" "/proj" [] "" "<html" "index.html" = "<html" ∧
    hasSubstrCI "<base".data
      (process_html_for_preview "/" "/proj" [] "" "<html" "index.html").data = false := by
  exact ⟨by decide, by decide⟩

/-- C7 (amended): the four injection scenarios hold on representative
documents — an existing `<base>` is replaced (not duplicated), otherwise the
tag is inserted after `<head...>`, otherwise a `<head>` is synthesized after
`<html...>`, otherwise the fragment is wrapped — but when the literal `<html`
occurs with no closing `>`, the content is returned unchanged with no base
tag. -/
theorem base_tag_injection_scenarios :
    process_html_for_preview "/" "/proj" [] ""
        "<html><head><base href=\"old\"></head><body></body></html>" "index.html" =
      "<html><head><base href=\"/preview-assets/\"></head><body></body></html>" ∧
    process_html_for_preview "/" "/proj" [] ""
        "<html><head></head><body></body></html>" "index.html" =
      "<html><head>\n    <base href=\"/preview-assets/\"></head><body></body></html>" ∧
    process_html_for_preview "/" "/proj" [] "" "<html><body>x</body></html>" "index.html" =
      "<html>\n<head><base href=\"/preview-assets/\"></head><body>x</body></html>" ∧
    process_html_for_preview "/" "/proj" [] "" "<p>x</p>" "index.html" =
      "<html><head><base href=\"/preview-assets/\"></head><body><p>x</p></body></html>" ∧
    process_html_for_preview "/" "/proj" [] "" "<html" "index.html" = "<html" := by
  exact ⟨by decide, by decide, by decide, by decide, by decide⟩

/-- A scan with no match anywhere is the identity. -/
theorem reSubGo_eq_of_not_hasMatch (step : StepFn) :
    ∀ (f : Nat) (prev : Option Char) (s : List Char),
      reHasMatchGo step f prev s = false → reSubGo step f prev s = s := by
  intro f
  induction f with
  | zero => intro prev s _; rfl
  | succ f ih =>
    intro prev s h
    cases s with
    | nil => rfl
    | cons c cs =>
      simp only [reHasMatchGo, Bool.or_eq_false_iff] at h
      obtain ⟨h1, h2⟩ := h
      have hstep : step prev (c :: cs) = none := by
        cases hs : step prev (c :: cs)
        · rfl
        · rw [hs] at h1; simp at h1
      simp only [reSubGo, hstep]
      rw [ih (some c) cs h2]

theorem reSub_eq_of_not_hasMatch (step : StepFn) (s : List Char)
    (h : reHasMatch step s = false) : reSub step s = s :=
  reSubGo_eq_of_not_hasMatch step _ _ _ h

/-- C9: `process_html_for_preview` is a total function of its text input
(every Lean definition above is total and no step of the model can fail), and
on text in which no rewrite pattern matches — such as a fragment with an
unterminated `<style>` block — every span is left untouched: the output is
exactly the input wrapped with the synthesized base-tag scaffold. -/
theorem process_html_unrecognized_spans_untouched (cwd base_dir : String) (fs : List String)
    (bh h fp : String)
    (h1 : reHasMatch (attrStep cwd base_dir fs fp) h.data = false)
    (h2 : reHasMatch (styleAttrStep cwd base_dir fs fp) h.data = false)
    (h3 : reHasMatch (styleTagStep cwd base_dir fs fp) h.data = false)
    (h4 : reHasMatch (remainingUrlStep cwd base_dir fs) h.data = false)
    (h5 : findTagGo "<base".data h.data = none)
    (h6 : findTagGo "<head".data h.data = none)
    (h7 : hasSubstrCI "<html".data h.data = false) :
    process_html_for_preview cwd base_dir fs bh h fp =
      String.mk ("<html><head>".data ++ baseTagFor bh fp ++ "</head><body>".data ++ h.data ++
        "</body></html>".data) := by
  simp only [process_html_for_preview]
  rw [reSub_eq_of_not_hasMatch _ _ h1, reSub_eq_of_not_hasMatch _ _ h2,
    reSub_eq_of_not_hasMatch _ _ h3, reSub_eq_of_not_hasMatch _ _ h4]
  simp only [baseInject]
  rw [h5, h6, h7]
  rfl

/-- C6 counterexample: a traversal candidate rejected by the sandbox
(`../etc/passwd` under base `/proj`, with `/etc/passwd` existing) makes the
endpoint answer 404, not the 403 the claim requires for sandbox rejection. -/
theorem preview_assets_rejected_is_404 :
    preview_assets_resolve "/" "/proj" ["/etc/passwd"] "../etc/passwd" =
      AssetOutcome.notFound ∧
    preview_assets_resolve "/" "/proj" ["/etc/passwd"] "../etc/passwd" ≠
      AssetOutcome.forbidden := by
  exact ⟨by decide, by decide⟩

/-- C6 (amended): for an absolute base directory the endpoint never answers
403 — a sandbox rejection surfaces as 404 like a missing file, because the
fallback chain only ever yields `safe_path` results, which always pass the
final containment double-check; an empty path after stripping slashes yields
404. -/
theorem preview_assets_no_forbidden (cwd base_dir asset_path : String) (fs : List String)
    (hb : strStartsWith base_dir "/" = true) :
    preview_assets_resolve cwd base_dir fs asset_path ≠ AssetOutcome.forbidden ∧
    (pyStrip asset_path '/' = "" →
      preview_assets_resolve cwd base_dir fs asset_path = AssetOutcome.notFound) := by
  constructor
  · intro hcon
    simp only [preview_assets_resolve] at hcon
    split at hcon
    · exact absurd hcon (by simp)
    · split at hcon
      · exact absurd hcon (by simp)
      · rename_i p hp
        split at hcon
        · exact absurd hcon (by simp)
        · split at hcon
          · rename_i hguard
            obtain ⟨c, hc⟩ := assetLookup_some hp
            rw [safe_path_double_check hb hc] at hguard
            simp at hguard
          · exact absurd hcon (by simp)
  · intro he
    simp only [preview_assets_resolve, he]
    rfl

/-- C6 witness: the amended endpoint theorem at base `/proj` with a traversal
candidate and at an empty path. -/
theorem preview_assets_no_forbidden_check :
    (preview_assets_resolve "/" "/proj" ["/proj/a.css"] "a/../../etc/passwd" ≠
      AssetOutcome.forbidden) ∧
    preview_assets_resolve "/" "/proj" ["/proj/a.css"] "///" = AssetOutcome.notFound :=
  ⟨(preview_assets_no_forbidden "/" "/proj" "a/../../etc/passwd" ["/proj/a.css"]
      (by decide)).1,
   (preview_assets_no_forbidden "/" "/proj" "///" ["/proj/a.css"] (by decide)).2 (by decide)⟩

/-- C9 witness: the fragment `<style>x url(y)` (unterminated `<style>` block)
is preserved verbatim inside the wrapped output. -/
theorem process_html_unrecognized_spans_untouched_check :
    process_html_for_preview "/" "/proj" [] "" "<style>x url(y)" "index.html" =
      String.mk ("<html><head>".data ++ baseTagFor "" "index.html" ++ "</head><body>".data ++
        "<style>x url(y)".data ++ "</body></html>".data) :=
  process_html_unrecognized_spans_untouched "/" "/proj" [] "" "<style>x url(y)" "index.html"
    (by decide) (by decide) (by decide) (by decide) (by decide) (by decide) (by decide)
